import Mathlib

/-!
Verification of the query-parameter compiler in `src/lib/query/mongo.query.ts`
(nest-mongo-query-parser).  JavaScript runtime values appearing in the
compiled descriptor are modelled by `JSValue`; JavaScript objects are
insertion-ordered association lists; numbers are rationals; an exception
thrown by the runtime (such as the `TypeError` raised by `Object.keys(null)`)
is modelled by `Except.error`.  The recursive token classifier is embedded
with an explicit fuel parameter; a stabilization theorem shows the fuel is
irrelevant above a bound linear in the token length, which is the formal
counterpart of termination of the source recursion.
-/

/-- Model of a JavaScript runtime value as produced by the compiler:
strings, rational numbers, booleans, `null`, insertion-ordered objects and
arrays. -/
inductive JSValue where
  | vNull : JSValue
  | vBool (b : Bool) : JSValue
  | vNum (q : Rat) : JSValue
  | vStr (s : String) : JSValue
  | vObj (fields : List (String × JSValue)) : JSValue
  | vArr (elems : List JSValue) : JSValue
  deriving Repr

/-- A JavaScript exception (`typeError` models the `TypeError` thrown by
`Object.keys(null)`), or exhaustion of the explicit recursion fuel in the
embedding. -/
inductive JSErr where
  | typeError : JSErr
  | outOfFuel : JSErr
  deriving Repr, DecidableEq

instance {ε α : Type} [DecidableEq ε] [DecidableEq α] : DecidableEq (Except ε α) := fun a b =>
  match a, b with
  | .ok x, .ok y => if h : x = y then isTrue (by rw [h]) else isFalse (by intro hc; cases hc; exact h rfl)
  | .error x, .error y => if h : x = y then isTrue (by rw [h]) else isFalse (by intro hc; cases hc; exact h rfl)
  | .ok _, .error _ => isFalse (by intro hc; cases hc)
  | .error _, .ok _ => isFalse (by intro hc; cases hc)

/-- A JavaScript object whose values are arbitrary runtime values
(the shape of `QueryObjectModel` in `mongo.query.model.ts`). -/
abbrev ObjMap := List (String × JSValue)

/-- A raw query value as produced by query-string decoding: a string or an
array of strings. -/
inductive RawVal where
  | rstr (s : String) : RawVal
  | rarr (ss : List String) : RawVal
  deriving Repr, DecidableEq

/-- The raw query mapping handed to `parse` (an insertion-ordered
JavaScript object). -/
abbrev RawQuery := List (String × RawVal)

/-! ## String primitives -/

/-- Characters matched by the JavaScript regex class `\w`. -/
def isWordChar (c : Char) : Bool :=
  (('a' ≤ c && c ≤ 'z') || ('A' ≤ c && c ≤ 'Z') || ('0' ≤ c && c ≤ '9') || c = '_')

/-- Whitespace characters matched by the JavaScript regex class `\s`
(restricted to the ASCII range, which covers every token considered here). -/
def isSpaceChar (c : Char) : Bool :=
  (c = ' ' || c = '\t' || c = '\n' || c = '\r' || c = '\x0b' || c = '\x0c')

def isDigitCh (c : Char) : Bool := ('0' ≤ c && c ≤ '9')

/-- Split a character list at every occurrence of `sep`, keeping empty
segments, exactly as JavaScript `String.prototype.split` does with a
single-character separator. -/
def splitCh (sep : Char) : List Char → List (List Char)
  | [] => [[]]
  | c :: cs =>
    if c = sep then [] :: splitCh sep cs
    else
      match splitCh sep cs with
      | [] => [[c]]
      | h :: t => (c :: h) :: t

/-- JavaScript `s.split(sep)` for a one-character separator. -/
def jsSplit (s : String) (sep : Char) : List String :=
  (splitCh sep s.data).map (fun l => ⟨l⟩)

/-- JavaScript `s.indexOf(c) !== -1`. -/
def strContains (s : String) (c : Char) : Bool := s.data.contains c

/-- JavaScript `s.startsWith(p)`. -/
def jsStartsWith (s p : String) : Bool := p.data.isPrefixOf s.data

/-- JavaScript `s.endsWith(p)`. -/
def jsEndsWith (s p : String) : Bool := p.data.isSuffixOf s.data

/-- JavaScript `s.replace(/a/g, b)` for one-character pattern and
replacement (used for `value.replace(/#/g, '&')`). -/
def jsReplaceChar (a b : Char) (s : String) : String :=
  ⟨s.data.map (fun c => if c = a then b else c)⟩

/-- The `filter.replace(/{/g, ',{')` step of the implicit-AND split of
`getSimpleFilterValue`. -/
def replaceBrace (l : List Char) : List Char :=
  l.foldr (fun c acc => if c = '{' then ',' :: '{' :: acc else c :: acc) []

/-- JavaScript property assignment `obj[k] = v` on an insertion-ordered
object: overwrites the value in place if the key exists, else appends. -/
def setKey {α : Type} (m : List (String × α)) (k : String) (v : α) : List (String × α) :=
  if m.any (fun kv => kv.1 = k) then m.map (fun kv => if kv.1 = k then (k, v) else kv)
  else m ++ [(k, v)]

/-- JavaScript property read `q[k]` on the raw query object. -/
def jsGet (q : RawQuery) (k : String) : Option RawVal :=
  (q.find? (fun kv => kv.1 = k)).map (fun kv => kv.2)

/-! ## Spec-modelled string utilities

The repository files `string.util.ts` and `string.validator.ts` are imported
by `mongo.query.ts` but are not among the provided sources, so the functions
below are modelled from the spec (sections 4.1, 4.4 and the coercion rules of
4.2); the concrete regex literals are taken from the call sites in
`mongo.query.ts`. -/

/-- Modelled from the spec: `StringUtils.cleanString` (its source file is
absent) "removes every character" its regex character class matches; the
embedding keeps exactly the complement class, given as the `keep`
predicate. -/
def cleanString (s : String) (keep : Char → Bool) : String := ⟨s.data.filter keep⟩

/-- Keep-set of the key-sanitizing call `cleanString(key, /[^A-z0-9_.]/g)`:
the regex range `A-z` spans ASCII 65..122 and therefore also admits the six
punctuation characters between `Z` and `a`. -/
def keyKeep (c : Char) : Bool :=
  (('A' ≤ c && c ≤ 'z') || ('0' ≤ c && c ≤ '9') || c = '_' || c = '.')

/-- The key sanitization applied to every field path (`cleanKey` in the
source). -/
def cleanKey (k : String) : String := cleanString k keyKeep

/-- Keep-set of the regex-value call `cleanString(filter, /[^\w\s@.-}]/g)`:
inside that class `.-}` is a character range (ASCII 46..125). -/
def regexValueKeep (c : Char) : Bool :=
  (isWordChar c || isSpaceChar c || c = '@' || ('.' ≤ c && c ≤ '}'))

/-- Modelled from the spec: `StringUtils.splitString` (source file absent);
the projection and sort builders "split the corresponding raw value on
`,`". -/
def splitString (s : String) (sep : Char) : List String := jsSplit s sep

/-- Modelled from the spec: `StringValidator.isInt` (source file absent);
`limit`, `skip` and `page` must "parse to an integer", non-numeric values
fall back to the default. -/
def isInt (s : String) : Bool :=
  match s.data with
  | [] => false
  | '-' :: ds => ds ≠ [] && ds.all isDigitCh
  | ds => ds.all isDigitCh

def digitsToNat (ds : List Char) : Nat :=
  ds.foldl (fun a c => 10 * a + (c.toNat - 48)) 0

/-- Numeric value (JavaScript unary `+`) of a string accepted by `isInt`. -/
def strToInt (s : String) : Int :=
  match s.data with
  | '-' :: ds => - (digitsToNat ds : Int)
  | ds => (digitsToNat ds : Int)

def numBody (ds : List Char) : Bool :=
  let ip := ds.takeWhile isDigitCh
  let rest := ds.dropWhile isDigitCh
  (ip ≠ [] && (rest = [] || (rest.head? = some '.' && rest.tail ≠ [] && rest.tail.all isDigitCh)))

/-- Modelled from the spec: `StringValidator.isNumberString` (source file
absent) — "token matches a numeric-string grammar"; embedded as an
optionally signed decimal numeral with an optional fractional part. -/
def isNumberString (s : String) : Bool :=
  match s.data with
  | '-' :: ds => numBody ds
  | ds => numBody ds

def numBodyVal (ds : List Char) : Rat :=
  let ip := ds.takeWhile isDigitCh
  let fp := (ds.dropWhile isDigitCh).drop 1
  if fp = [] then (digitsToNat ip : Rat)
  else (digitsToNat ip : Rat) + (digitsToNat fp : Rat) / ((10 : Rat) ^ fp.length)

/-- Numeric value (JavaScript unary `+`) of a string accepted by
`isNumberString`. -/
def toNumber (s : String) : Rat :=
  match s.data with
  | '-' :: ds => - numBodyVal ds
  | ds => numBodyVal ds

/-- Modelled from the spec: `StringValidator.isISODate` (source file
absent); an ISO-8601 calendar date `YYYY-MM-DD`. -/
def isISODate (s : String) : Bool :=
  match s.data with
  | [y1, y2, y3, y4, c1, m1, m2, c2, d1, d2] =>
    ([y1, y2, y3, y4, m1, m2, d1, d2].all isDigitCh && c1 = '-' && c2 = '-')
  | _ => false

def timeTail : List Char → Bool
  | [] => true
  | ['Z'] => true
  | '.' :: ms =>
    (ms.takeWhile isDigitCh ≠ [] &&
      (ms.dropWhile isDigitCh = [] || ms.dropWhile isDigitCh = ['Z']))
  | _ => false

def timePart : List Char → Bool
  | h1 :: h2 :: c1 :: n1 :: n2 :: c2 :: s1 :: s2 :: tail =>
    ([h1, h2, n1, n2, s1, s2].all isDigitCh && c1 = ':' && c2 = ':' && timeTail tail)
  | _ => false

/-- Modelled from the spec: `StringValidator.isISODateTime` (source file
absent); a calendar date followed by `T` and a `HH:MM:SS` time with optional
milliseconds and optional `Z`. -/
def isISODateTime (s : String) : Bool :=
  match s.data with
  | y1 :: y2 :: y3 :: y4 :: c1 :: m1 :: m2 :: c2 :: d1 :: d2 :: 'T' :: rest =>
    ([y1, y2, y3, y4, m1, m2, d1, d2].all isDigitCh && c1 = '-' && c2 = '-' && timePart rest)
  | _ => false

/-- Modelled from the spec: the date coercion `new Date(filter).toISOString()`
yields the "normalized ISO-8601 representation"; a bare date gains midnight
UTC time, a date-time gains missing milliseconds and the UTC suffix
(time-zone offsets of the Date builtin are not modelled). -/
def toISOString (s : String) : String :=
  if isISODate s then s ++ ("T00:00:00.000Z")
  else
    let base : List Char := s.data.take 19
    let ms := ((s.data.drop 19).drop 1).takeWhile isDigitCh
    ⟨base ++ '.' :: ((ms ++ List.replicate 3 '0').take 3 ++ ['Z'])⟩

/-! ## URLSearchParams model (used by the element-match branch) -/

def hexVal (c : Char) : Option Nat :=
  if ('0' ≤ c && c ≤ '9') then some (c.toNat - 48)
  else if ('a' ≤ c && c ≤ 'f') then some (c.toNat - 87)
  else if ('A' ≤ c && c ≤ 'F') then some (c.toNat - 55)
  else none

/-- Percent-decoding applied by `URLSearchParams` to keys and values (`+`
becomes a space, `%HH` the coded character; malformed escapes are kept
literally). -/
def pctDecode : List Char → List Char
  | [] => []
  | '+' :: rest => ' ' :: pctDecode rest
  | '%' :: c1 :: c2 :: rest =>
    (match hexVal c1, hexVal c2 with
     | some h1, some h2 => Char.ofNat (16 * h1 + h2) :: pctDecode rest
     | _, _ => '%' :: pctDecode (c1 :: c2 :: rest))
  | c :: rest => c :: pctDecode rest

def splitEqAt (l : List Char) : List Char × List Char :=
  (l.takeWhile (fun c => c ≠ '='), (l.dropWhile (fun c => c ≠ '=')).drop 1)

/-- The parameter list enumerated by `new URLSearchParams(s).forEach`:
split on `&`, drop empty segments, split each segment at its first `=`,
percent-decode keys and values. -/
def parseQS (s : String) : List (String × String) :=
  ((splitCh '&' s.data).filter (fun seg => seg ≠ [])).map
    (fun seg => (⟨pctDecode (splitEqAt seg).1⟩, ⟨pctDecode (splitEqAt seg).2⟩))


/-! ## Object.keys and property access -/

/-- Little-endian decimal digits of `n` (with explicit fuel so that the
kernel can evaluate it); empty for zero. -/
def decDigitsAux : Nat → Nat → List Char
  | 0, _ => []
  | _, 0 => []
  | fuel + 1, n => Char.ofNat (48 + n % 10) :: decDigitsAux fuel (n / 10)

/-- Decimal rendering of a natural number, used for the index keys that
`Object.keys` produces on strings and arrays. -/
def natToDec (n : Nat) : String :=
  if n = 0 then ("0") else ⟨(decDigitsAux n n).reverse⟩

/-- Numeric value of a little-endian decimal digit list (decoder used to
prove `natToDec` injective). -/
def decVal : List Char → Nat
  | [] => 0
  | c :: cs => (c.toNat - 48) + 10 * decVal cs

/-- The indexed own properties of a JavaScript string: decimal index keys
paired with one-character strings, in index order. -/
def strProps (s : String) : List (String × JSValue) :=
  (List.range s.length).map (fun i => (natToDec i, JSValue.vStr ⟨[s.data.getD i ' ']⟩))

/-- `Object.keys(v)`: throws `TypeError` on `null`, yields decimal index
keys on strings and arrays, field names on objects, and the empty list on
the remaining primitives. -/
def jsKeys : JSValue → Except JSErr (List String)
  | .vNull => .error .typeError
  | .vStr s => .ok ((strProps s).map (fun kv => kv.1))
  | .vObj fs => .ok (fs.map (fun kv => kv.1))
  | .vArr es => .ok ((List.range es.length).map (fun i => natToDec i))
  | _ => .ok []

/-- Property access `v[k]` for a key enumerated by `jsKeys`. -/
def jsGetProp : JSValue → String → JSValue
  | .vStr s, k => (((strProps s).find? (fun kv => kv.1 = k)).map (fun kv => kv.2)).getD .vNull
  | .vObj fs, k => ((fs.find? (fun kv => kv.1 = k)).map (fun kv => kv.2)).getD .vNull
  | .vArr es, k =>
    (match k.toNat? with
     | some i => es.getD i .vNull
     | none => .vNull)
  | _, _ => .vNull

/-! ## JSON.parse model (external builtin used by `isJson`) -/

def skipWs (l : List Char) : List Char :=
  l.dropWhile (fun c => c = ' ' || c = '\t' || c = '\n' || c = '\r')

def jsonEsc (e : Char) (r : List Char) : Option (Char × List Char) :=
  if e = '"' then some ('"', r)
  else if e = '\\' then some ('\\', r)
  else if e = '/' then some ('/', r)
  else if e = 'b' then some ('\x08', r)
  else if e = 'f' then some ('\x0c', r)
  else if e = 'n' then some ('\n', r)
  else if e = 'r' then some ('\r', r)
  else if e = 't' then some ('\t', r)
  else if e = 'u' then
    match r with
    | h1 :: h2 :: h3 :: h4 :: r2 =>
      (match hexVal h1, hexVal h2, hexVal h3, hexVal h4 with
       | some a, some b, some c, some d =>
         some (Char.ofNat (4096 * a + 256 * b + 16 * c + d), r2)
       | _, _, _, _ => none)
    | _ => none
  else none

def jsonDigits (l : List Char) : List Char × List Char :=
  (l.takeWhile isDigitCh, l.dropWhile isDigitCh)

def jsonExpBody (l : List Char) : Option (Int × List Char) :=
  let p : Int × List Char :=
    match l with
    | '+' :: r => (1, r)
    | '-' :: r => (-1, r)
    | _ => (1, l)
  let d := jsonDigits p.2
  if d.1 = [] then none else some (p.1 * (digitsToNat d.1 : Int), d.2)

def jsonExp (l : List Char) : Option (Int × List Char) :=
  match l with
  | 'e' :: r => jsonExpBody r
  | 'E' :: r => jsonExpBody r
  | _ => some (0, l)

def fracRat (fds : List Char) : Rat :=
  (digitsToNat fds : Rat) / ((10 : Rat) ^ fds.length)

def expRat (e : Int) : Rat :=
  if e = 0 then 1
  else if 0 ≤ e then ((10 : Rat) ^ e.toNat)
  else 1 / ((10 : Rat) ^ (-e).toNat)

/-- Combine integer part, fraction digits and exponent of a JSON number
(exact evaluation paths are kept free of `Rat` normalization so that closed
instances reduce in the kernel). -/
def jsonNumVal (ip : Nat) (fds : List Char) (e : Int) : Rat :=
  if fds = [] then
    (if e = 0 then (ip : Rat) else (ip : Rat) * expRat e)
  else ((ip : Rat) + fracRat fds) * expRat e

def jsonNumTail (ip : Nat) (l : List Char) : Option (Rat × List Char) :=
  match l with
  | '.' :: r =>
    let d := jsonDigits r
    if d.1 = [] then none
    else
      (match jsonExp d.2 with
       | none => none
       | some (e, r3) => some (jsonNumVal ip d.1 e, r3))
  | _ =>
    (match jsonExp l with
     | none => none
     | some (e, r3) => some (jsonNumVal ip [] e, r3))

def jsonSigned (neg : Bool) (q : Rat) : Rat := if neg then -q else q

/-- Parse a JSON number (no leading zeros, optional fraction and exponent). -/
def jsonNum (l : List Char) : Option (JSValue × List Char) :=
  let p : Bool × List Char :=
    match l with
    | '-' :: r => (true, r)
    | _ => (false, l)
  match p.2 with
  | '0' :: r => (jsonNumTail 0 r).map (fun q => (JSValue.vNum (jsonSigned p.1 q.1), q.2))
  | c :: r =>
    if isDigitCh c then
      let d := jsonDigits (c :: r)
      (jsonNumTail (digitsToNat d.1) d.2).map
        (fun q => (JSValue.vNum (jsonSigned p.1 q.1), q.2))
    else none
  | [] => none

mutual

/-- Fueled recursive-descent parser for the JSON grammar, modelling the
`JSON.parse` builtin; returns the parsed value and the unconsumed suffix. -/
def jsonVal : Nat → List Char → Option (JSValue × List Char)
  | 0, _ => none
  | n + 1, l =>
    match skipWs l with
    | 'n' :: 'u' :: 'l' :: 'l' :: r => some (.vNull, r)
    | 't' :: 'r' :: 'u' :: 'e' :: r => some (.vBool true, r)
    | 'f' :: 'a' :: 'l' :: 's' :: 'e' :: r => some (.vBool false, r)
    | '"' :: r => (jsonStrBody n r).map (fun p => (JSValue.vStr ⟨p.1⟩, p.2))
    | '{' :: r => jsonObjBody n (skipWs r)
    | '[' :: r => jsonArrBody n (skipWs r)
    | r => jsonNum r

def jsonObjBody : Nat → List Char → Option (JSValue × List Char)
  | 0, _ => none
  | n + 1, l =>
    match l with
    | '}' :: r => some (.vObj [], r)
    | _ => (jsonMembers n l).map (fun p => (JSValue.vObj p.1, p.2))

def jsonMembers : Nat → List Char → Option (List (String × JSValue) × List Char)
  | 0, _ => none
  | n + 1, l =>
    match skipWs l with
    | '"' :: r =>
      (match jsonStrBody n r with
       | none => none
       | some (k, r2) =>
         match skipWs r2 with
         | ':' :: r3 =>
           (match jsonVal n r3 with
            | none => none
            | some (v, r4) =>
              match skipWs r4 with
              | ',' :: r5 => (jsonMembers n r5).map (fun p => ((⟨k⟩, v) :: p.1, p.2))
              | '}' :: r5 => some ([(⟨k⟩, v)], r5)
              | _ => none)
         | _ => none)
    | _ => none

def jsonArrBody : Nat → List Char → Option (JSValue × List Char)
  | 0, _ => none
  | n + 1, l =>
    match l with
    | ']' :: r => some (.vArr [], r)
    | _ => (jsonElems n l).map (fun p => (JSValue.vArr p.1, p.2))

def jsonElems : Nat → List Char → Option (List JSValue × List Char)
  | 0, _ => none
  | n + 1, l =>
    match jsonVal n l with
    | none => none
    | some (v, r) =>
      match skipWs r with
      | ',' :: r2 => (jsonElems n r2).map (fun p => (v :: p.1, p.2))
      | ']' :: r2 => some ([v], r2)
      | _ => none

def jsonStrBody : Nat → List Char → Option (List Char × List Char)
  | 0, _ => none
  | n + 1, l =>
    match l with
    | '"' :: r => some ([], r)
    | '\\' :: e :: r =>
      (match jsonEsc e r with
       | none => none
       | some (c, r2) => (jsonStrBody n r2).map (fun p => (c :: p.1, p.2)))
    | c :: r => (jsonStrBody n r).map (fun p => (c :: p.1, p.2))
    | [] => none

end

/-- `JSON.parse` on a whole string (`none` models a thrown `SyntaxError`,
which `isJson` catches). -/
def jsonParse (s : String) : Option JSValue :=
  match jsonVal (3 * s.length + 8) s.data with
  | some (v, rest) => if skipWs rest = [] then some v else none
  | none => none

/-- The `isJson` helper of `mongo.query.ts`: the token parses as JSON and
the result is an object or array (`typeof item === 'object' && item !== null`). -/
def isJson (s : String) : Bool :=
  match jsonParse s with
  | some (.vObj _) => true
  | some (.vArr _) => true
  | _ => false


/-! ## Token-shape predicates (`mongo.query.ts` lines 355..430) -/

/-- `isComparisonFilter`. -/
def isComparisonFilter (s : String) : Bool :=
  (jsStartsWith s ("{eq}") || jsStartsWith s ("{gt}") || jsStartsWith s ("{gte}") ||
   jsStartsWith s ("{in}") || jsStartsWith s ("{lt}") || jsStartsWith s ("{lte}") ||
   jsStartsWith s ("{ne}") || jsStartsWith s ("{nin}"))

/-- `isElementFilter`. -/
def isElementFilter (s : String) : Bool :=
  (jsStartsWith s ("{exists}") || jsStartsWith s ("{type}"))

/-- `isElementMatchFilter`. -/
def isElementMatchFilter (s : String) : Bool := jsStartsWith s ("{elemMatch}")

/-- The `VALID_OPERATORS.queryOperators.logical` list of `mongo.query.ts`. -/
def logicalOperators : List String := [("$and"), ("$not"), ("$nor"), ("$or")]

/-- `isLogicalOperator`: the token starts with `{op}` for one of the logical
operators (`op.replace('$', '')` strips the leading dollar sign). -/
def isLogicalOperator (s : String) : Bool :=
  logicalOperators.any (fun op => jsStartsWith s (("\x7b") ++ op.drop 1 ++ ("\x7d")))

/-- `isANDFilter`: at least one `{` and more than one nonempty
`{`-separated chunk. -/
def isANDFilter (s : String) : Bool :=
  (strContains s '{' && ((splitCh '{' s.data).filter (fun v => v ≠ [])).length > 1)

/-- Character class `[{\w\s@.-}]` of the OR-shape regex of `isORFilter`
(the trailing `.-}` is the character range ASCII 46..125). -/
def orSeg (c : Char) : Bool :=
  (c = '{' || isWordChar c || isSpaceChar c || c = '@' || ('.' ≤ c && c ≤ '}'))

/-- Character class `[{\w@.-}]` closing the OR-shape regex. -/
def orLast (c : Char) : Bool :=
  (c = '{' || isWordChar c || c = '@' || ('.' ≤ c && c ≤ '}'))

/-- Backtracking matcher for `([{\w\s@.-}]\|?)*[{\w@.-}]` anchored at both
ends: the tail of the OR-shape regex after its first mandatory repetition. -/
def orTail : List Char → Bool
  | [] => false
  | [c] => orLast c
  | a :: rest =>
    (orSeg a && (orTail rest ||
      (match rest with
       | '|' :: r2 => orTail r2
       | _ => false)))

/-- Anchored matcher for the whole OR-shape regex
`^(([{\w\s@.-}]\|?){1,}[{\w@.-}])$`. -/
def orMatch : List Char → Bool
  | [] => false
  | a :: rest =>
    (orSeg a && (orTail rest ||
      (match rest with
       | '|' :: r2 => orTail r2
       | _ => false)))

/-- `isORFilter`: contains a pipe and matches the OR-shape regex. -/
def isORFilter (s : String) : Bool := (strContains s '|' && orMatch s.data)

/-! ## Tag decomposition and leaf builders -/

/-- `filter.substring(1, filter.indexOf('}'))`: the operator name of a
brace-tagged token (every use site guarantees the token starts with `{`, so
the first `}` lies beyond position 0). -/
def tagOp (s : String) : String := ⟨(s.data.drop 1).takeWhile (fun c => c ≠ '}')⟩

/-- `filter.substring(filter.indexOf('}') + 1)`: the residual value of a
brace-tagged token. -/
def tagValue (s : String) : String :=
  ⟨((s.data.drop 1).dropWhile (fun c => c ≠ '}')).drop 1⟩

/-- `getElementExists`. -/
def getElementExists (value : String) : JSValue :=
  if value = ("true") || value = ("false") then .vObj [(("$exists"), .vBool (value = ("true")))]
  else .vNull

/-- The fixed BSON type-name list of `getElementType`. -/
def validTypes : List String :=
  [("double"), ("string"), ("object"), ("array"), ("binData"), ("objectId"),
   ("bool"), ("date"), ("null"), ("regex"), ("javascript"), ("int"),
   ("timestamp"), ("long"), ("decimal"), ("minKey"), ("maxKey")]

/-- `getElementType`. -/
def getElementType (value : String) : JSValue :=
  if validTypes.contains value then .vObj [(("$type"), .vStr value)] else .vNull

/-- Index of the first occurrence of `pat` in `l`, if any. -/
def findPat (pat : List Char) : List Char → Option Nat
  | [] => if pat = [] then some 0 else none
  | c :: cs =>
    if pat.isPrefixOf (c :: cs) then some 0
    else (findPat pat cs).map (fun i => i + 1)

/-- `filter.split('{regex}')[1]` for a token that starts with `{regex}`: the
segment between the first occurrence of the tag and the next one (or the end
of the string). -/
def splitRegexSecond (s : String) : String :=
  let rest := s.data.drop 7
  match findPat (("{regex}").data) rest with
  | some i => ⟨rest.take i⟩
  | none => ⟨rest⟩

/-- The wildcard / `{regex}` branch closing `getSimpleFilterValue` (lines
330..352): strip a leading `{regex}` tag, sanitize, and anchor with `^`/`$`
according to the `*` markers; when the token has a `*` on both sides the
`$regex.substring(1)` call removes the `^` just prepended, leaving the bare
body. -/
def regexNode (s0 : String) : JSValue :=
  let s := if jsStartsWith s0 ("{regex}") then splitRegexSecond s0 else s0
  let value := cleanString s regexValueKeep
  let r :=
    if jsStartsWith s ("*") then
      (if jsEndsWith s ("*") then value else ("^") ++ value)
    else if jsEndsWith s ("*") then value ++ ("$")
    else value
  .vObj [(("$regex"), .vStr r), (("$options"), .vStr ("i"))]

/-! ## The four mutually recursive compiler functions -/

/-- The reserved keys removed from the query object by `getFilter`'s six
`delete` statements — a genuine mutation of the caller's object. -/
def reservedKeys : List String :=
  [("limit"), ("skip"), ("page"), ("select"), ("sort"), ("populate")]

/-- The query object after `getFilter`'s `delete` statements. -/
def stripReserved (q : RawQuery) : RawQuery :=
  q.filter (fun kv => !(reservedKeys.contains kv.1))

/-- The implicit-AND split
`filter.replace(/{/g, ',{').split(',').filter(v => v !== '')`. -/
def braceSplit (s : String) : List String :=
  ((splitCh ',' (replaceBrace s.data)).filter (fun v => v ≠ [])).map (fun l => ⟨l⟩)

def isVNull : JSValue → Bool
  | .vNull => true
  | _ => false

/-- Body of `getMapOfOperatorsWithValues`:
`filter.map(item => getSimpleFilterValue(item))`, left to right, with a
thrown exception propagating out. -/
def mapBody (recC : String → Except JSErr JSValue) : List String → Except JSErr (List JSValue)
  | [] => .ok []
  | x :: xs =>
    match recC x with
    | .error e => .error e
    | .ok v =>
      match mapBody recC xs with
      | .error e => .error e
      | .ok vs => .ok (v :: vs)

/-- One step of the `getImplicitANDValue` reduce: copy every own key of the
classified value onto the accumulator (`Object.keys` throws on `null`). -/
def impStep (acc : ObjMap) (v : JSValue) : Except JSErr ObjMap :=
  match jsKeys v with
  | .error e => .error e
  | .ok ks => .ok (ks.foldl (fun a k => setKey a k (jsGetProp v k)) acc)

def impFold : ObjMap → List JSValue → Except JSErr ObjMap
  | acc, [] => .ok acc
  | acc, v :: vs =>
    match impStep acc v with
    | .error e => .error e
    | .ok acc2 => impFold acc2 vs

/-- Body of `getImplicitANDValue`: classify all elements, then merge the
key/value pairs of every classified result into one object (last write
wins). -/
def impBody (recMap : List String → Except JSErr (List JSValue)) (l : List String) :
    Except JSErr JSValue :=
  match recMap l with
  | .error e => .error e
  | .ok vs =>
    match impFold [] vs with
    | .error e => .error e
    | .ok obj => .ok (.vObj obj)

/-- One key/value step of the `getFilter` reduce: an array value is merged
by `getImplicitANDValue` and always assigned; a scalar value is classified
and assigned unless the classification returned `null`. -/
def filStep (recC : String → Except JSErr JSValue) (recImp : List String → Except JSErr JSValue)
    (obj : ObjMap) (k : String) : RawVal → Except JSErr ObjMap
  | .rarr arr =>
    (match recImp arr with
     | .error e => .error e
     | .ok v => .ok (setKey obj (cleanKey k) v))
  | .rstr sv =>
    (match recC sv with
     | .error e => .error e
     | .ok value => .ok (if isVNull value then obj else setKey obj (cleanKey k) value))

def filFold (recC : String → Except JSErr JSValue) (recImp : List String → Except JSErr JSValue) :
    ObjMap → RawQuery → Except JSErr ObjMap
  | obj, [] => .ok obj
  | obj, kv :: rest =>
    match filStep recC recImp obj kv.1 kv.2 with
    | .error e => .error e
    | .ok obj2 => filFold recC recImp obj2 rest

/-- Body of `getFilter`: remove the reserved keys from the query object (the
`delete` statements), then fold the remaining entries; the `if (!query)`
line is dead since an object is always truthy. -/
def filBody (recC : String → Except JSErr JSValue) (recImp : List String → Except JSErr JSValue)
    (q : RawQuery) : Except JSErr ObjMap :=
  filFold recC recImp [] (stripReserved q)

/-- The element-match sub-filter object built from
`new URLSearchParams(value.replace(/#/g, '&'))` by the `forEach` loop
(assignment semantics: a repeated key keeps its first position, the last
value wins), with its string values embedded as raw query values. -/
def elemParams (value : String) : RawQuery :=
  ((parseQS (jsReplaceChar '#' '&' value)).foldl
    (fun (acc : List (String × String)) kv => setKey acc kv.1 kv.2) []).map
    (fun kv => (kv.1, RawVal.rstr kv.2))

/-- Body of `getSimpleFilterValue` (lines 233..353), with the recursive call
sites abstracted: `recC` stands for `getSimpleFilterValue`, `recFil` for
`getFilter`, `recImp` for `getImplicitANDValue`, `recMap` for
`getMapOfOperatorsWithValues`. -/
def classifyBody (recC : String → Except JSErr JSValue)
    (recFil : RawQuery → Except JSErr ObjMap)
    (recImp : List String → Except JSErr JSValue)
    (recMap : List String → Except JSErr (List JSValue))
    (s : String) : Except JSErr JSValue :=
  if s = ("") then .ok .vNull
  else if isJson s then .ok ((jsonParse s).getD .vNull)
  else if isElementMatchFilter s then
    (if tagValue s = ("") then .ok .vNull
     else
       match recFil (elemParams (tagValue s)) with
       | .error e => .error e
       | .ok f => .ok (.vObj [(("$") ++ tagOp s, .vObj f)]))
  else if isLogicalOperator s then
    (match recC (tagValue s) with
     | .error e => .error e
     | .ok w => .ok (.vObj [(("$") ++ tagOp s, w)]))
  else if isORFilter s then
    (match recMap (jsSplit s '|') with
     | .error e => .error e
     | .ok vs => .ok (.vObj [(("$or"), .vArr vs)]))
  else if isANDFilter s then recImp (braceSplit s)
  else if isComparisonFilter s then
    (if tagValue s = ("") then .ok .vNull
     else
       match recC (tagValue s) with
       | .error e => .error e
       | .ok w => .ok (.vObj [(("$") ++ tagOp s, w)]))
  else if isElementFilter s then
    (if tagValue s = ("") then .ok .vNull
     else if tagOp s = ("exists") then .ok (getElementExists (tagValue s))
     else .ok (getElementType (tagValue s)))
  else if isISODate s || isISODateTime s then .ok (.vStr (toISOString s))
  else if isNumberString s then .ok (.vNum (toNumber s))
  else if s = ("true") || s = ("false") then .ok (.vBool (s = ("true")))
  else if !(strContains s '*') && !(jsStartsWith s ("{regex}")) then .ok (.vStr s)
  else .ok (regexNode s)

mutual

/-- Fueled embedding of `getSimpleFilterValue`. -/
def getSimpleFilterValueF : Nat → String → Except JSErr JSValue
  | 0, _ => .error .outOfFuel
  | n + 1, s =>
    classifyBody (getSimpleFilterValueF n) (getFilterF n) (getImplicitANDValueF n)
      (getMapOfOperatorsWithValuesF n) s

/-- Fueled embedding of `getFilter`. -/
def getFilterF : Nat → RawQuery → Except JSErr ObjMap
  | 0, _ => .error .outOfFuel
  | n + 1, q => filBody (getSimpleFilterValueF n) (getImplicitANDValueF n) q

/-- Fueled embedding of `getImplicitANDValue`. -/
def getImplicitANDValueF : Nat → List String → Except JSErr JSValue
  | 0, _ => .error .outOfFuel
  | n + 1, l => impBody (getMapOfOperatorsWithValuesF n) l

/-- Fueled embedding of `getMapOfOperatorsWithValues`. -/
def getMapOfOperatorsWithValuesF : Nat → List String → Except JSErr (List JSValue)
  | 0, _ => .error .outOfFuel
  | n + 1, l => mapBody (getSimpleFilterValueF n) l

end

/-! ## Canonical (fuel-saturated) entry points -/

def maxLen (l : List String) : Nat := l.foldr (fun x a => max x.length a) 0

def valStrings : RawVal → List String
  | .rstr s => [s]
  | .rarr l => l

def queryBound (q : RawQuery) : Nat :=
  q.foldr (fun kv a => max (maxLen (valStrings kv.2)) a) 0

/-- `getSimpleFilterValue` at its canonical fuel; the stabilization theorem
below shows that any fuel of at least `3·length + 1` yields this value. -/
def getSimpleFilterValue (s : String) : Except JSErr JSValue :=
  getSimpleFilterValueF (3 * s.length + 1) s

/-- `getMapOfOperatorsWithValues` at its canonical fuel. -/
def getMapOfOperatorsWithValues (l : List String) : Except JSErr (List JSValue) :=
  getMapOfOperatorsWithValuesF (3 * maxLen l + 2) l

/-- `getImplicitANDValue` at its canonical fuel. -/
def getImplicitANDValue (l : List String) : Except JSErr JSValue :=
  getImplicitANDValueF (3 * maxLen l + 3) l

/-- `getFilter` at its canonical fuel. -/
def getFilter (q : RawQuery) : Except JSErr ObjMap :=
  getFilterF (3 * queryBound q + 4) q

/-! ## Top-level `parse` and the non-core builders -/

/-- The compiled descriptor `MongoQueryModel` (the dormant `populate` field
is never assigned by `parse` and is omitted from the embedding). -/
structure MongoQueryModel where
  limit : Int
  skip : Int
  select : ObjMap
  sort : ObjMap
  filter : ObjMap
  deriving Repr

/-- `getIntKey` (`!query[key]` rejects an absent key or an empty string; a
non-string value never passes `isInt`). -/
def getIntKey (q : RawQuery) (key : String) (d : Int) : Int :=
  match jsGet q key with
  | some (.rstr s) => if s ≠ ("") && isInt s then strToInt s else d
  | _ => d

/-- `getSkipFromPage`. -/
def getSkipFromPage (q : RawQuery) (d : Int) (limit : Int) : Int :=
  let page := getIntKey q ("page") d
  if page > 1 then (page - 1) * limit else 0

/-- JavaScript truthiness of `query[k]` (an empty string is falsy; any
array, even empty, is truthy). -/
def keyTruthy (q : RawQuery) (k : String) : Bool :=
  match jsGet q k with
  | none => false
  | some (.rstr s) => s ≠ ("")
  | some (.rarr _) => true

/-- `getSelect` (an array-valued `select` lies outside the string contract
of the spec-modelled `splitString` and is mapped to the default). -/
def getSelect (q : RawQuery) (d : ObjMap) : ObjMap :=
  match jsGet q ("select") with
  | some (.rstr s) =>
    if s = ("") then d
    else
      (splitString s ',').foldl
        (fun obj key =>
          setKey obj (cleanKey key) (if jsStartsWith key ("-") then .vNum 0 else .vNum 1)) []
  | _ => d

/-- `getSort`. -/
def getSort (q : RawQuery) (d : ObjMap) : ObjMap :=
  match jsGet q ("sort") with
  | some (.rstr s) =>
    if s = ("") then d
    else
      (splitString s ',').foldl
        (fun obj key =>
          setKey obj (cleanKey key) (if jsStartsWith key ("-") then .vNum (-1) else .vNum 1)) []
  | _ => d

/-- `parse` of `mongo.query.ts` (defaults: limit 100, skip 0, page 1; the
`populate` line of the source is commented out). -/
def parse (q : RawQuery) : Except JSErr MongoQueryModel :=
  let lim := getIntKey q ("limit") 100
  let skp := if keyTruthy q ("page") then getSkipFromPage q 1 lim else getIntKey q ("skip") 0
  match getFilter q with
  | .error e => .error e
  | .ok f => .ok ⟨lim, skp, getSelect q [], getSort q [], f⟩

/-- `parse` together with the final state of the caller's query object: the
`delete` statements inside `getFilter` strip the six reserved keys from the
very object that was passed in. -/
def parseWithEffect (q : RawQuery) : Except JSErr (MongoQueryModel × RawQuery) :=
  match parse q with
  | .error e => .error e
  | .ok m => .ok (m, stripReserved q)


/-! ## Statement-level definitions for the claims -/

/-- The sanitizer exactly as worded by the spec and by claim C3: keep
precisely the characters of `[A-Za-z0-9_.]`.  Stated for comparison with the
source behaviour `cleanKey`; the two differ. -/
def specSanitizeKeep (c : Char) : Bool :=
  (('A' ≤ c && c ≤ 'Z') || ('a' ≤ c && c ≤ 'z') || ('0' ≤ c && c ≤ '9') || c = '_' || c = '.')

/-- The spec-worded sanitizer (claim C3's reading). -/
def specSanitize (s : String) : String := ⟨s.data.filter specSanitizeKeep⟩

/-- The raw filter of claim C4. -/
def rawFilterC4 : RawQuery :=
  [(("name"), .rstr ("*jo")), (("age"), .rstr ("{gte}18{lte}65")),
   (("status"), .rstr ("a|b"))]

/-- The eight comparison operator tags. -/
def comparisonOps : List String :=
  [("eq"), ("gt"), ("gte"), ("in"), ("lt"), ("lte"), ("ne"), ("nin")]

/-- Render a list of `(op, value)` groups as the brace-concatenated token
`{op1}v1{op2}v2…` of claim C6. -/
def renderGroups (gs : List (String × String)) : String :=
  ⟨gs.foldr (fun g acc => '{' :: (g.1.data ++ '}' :: (g.2.data ++ acc))) []⟩

/-! ## Basic lemmas on the string primitives -/

theorem strLen_data (s : String) : s.length = s.data.length := rfl

theorem strLen_pos {s : String} (h : s ≠ ("")) : 1 ≤ s.length := by
  rcases s with ⟨l⟩
  cases l with
  | nil => exact absurd rfl h
  | cons c cs => simp [strLen_data]

theorem splitCh_ne_nil (sep : Char) (l : List Char) : splitCh sep l ≠ [] := by
  cases l with
  | nil => simp [splitCh]
  | cons c cs =>
    simp only [splitCh]
    split
    · simp
    · split <;> simp

theorem splitCh_cons_self (sep : Char) (cs : List Char) :
    splitCh sep (sep :: cs) = [] :: splitCh sep cs := by
  simp [splitCh]

theorem splitCh_cons_ne {sep c : Char} (hc : c ≠ sep) (cs : List Char) :
    splitCh sep (c :: cs) =
      (match splitCh sep cs with
       | [] => [[c]]
       | h :: t => (c :: h) :: t) := by
  simp [splitCh, hc]

theorem count_cons_ne {sep c : Char} (hc : c ≠ sep) (cs : List Char) :
    (c :: cs).count sep = cs.count sep := by
  simp [List.count_cons]
  intro hcs
  exact absurd hcs hc

theorem splitCh_mem_length {sep : Char} :
    ∀ {l p : List Char}, p ∈ splitCh sep l → p.length + l.count sep ≤ l.length := by
  intro l
  induction l with
  | nil =>
    intro p hp
    simp only [splitCh, List.mem_singleton] at hp
    simp [hp]
  | cons c cs ih =>
    intro p hp
    by_cases hc : c = sep
    · subst hc
      rw [splitCh_cons_self] at hp
      rcases List.mem_cons.mp hp with hp | hp
      · subst hp
        have h0 : cs.count c ≤ cs.length := List.count_le_length c cs
        simp only [List.length_nil, List.count_cons_self, List.length_cons]
        omega
      · have := ih hp
        simp only [List.count_cons_self, List.length_cons]
        omega
    · rw [splitCh_cons_ne hc] at hp
      rcases hsp : splitCh sep cs with _ | ⟨h, t⟩
      · exact absurd hsp (splitCh_ne_nil sep cs)
      · rw [hsp] at hp
        rw [count_cons_ne hc]
        rcases List.mem_cons.mp hp with hp | hp
        · subst hp
          have := ih (show h ∈ splitCh sep cs by rw [hsp]; simp)
          simp only [List.length_cons]
          omega
        · have := ih (show p ∈ splitCh sep cs by rw [hsp]; simp [hp])
          simp only [List.length_cons]
          omega

theorem splitCh_mem_lt {sep : Char} {l p : List Char} (hp : p ∈ splitCh sep l)
    (hc : sep ∈ l) : p.length < l.length := by
  have h1 := splitCh_mem_length hp
  have h2 : 1 ≤ l.count sep := List.count_pos_iff.mpr hc
  omega

theorem replaceBrace_cons (c : Char) (l : List Char) :
    replaceBrace (c :: l) =
      (if c = '{' then ',' :: '{' :: replaceBrace l else c :: replaceBrace l) := rfl

theorem replaceBrace_cons_brace (l : List Char) :
    replaceBrace ('{' :: l) = ',' :: '{' :: replaceBrace l := rfl

theorem replaceBrace_cons_ne {c : Char} (hc : c ≠ '{') (l : List Char) :
    replaceBrace (c :: l) = c :: replaceBrace l := by
  rw [replaceBrace_cons, if_neg hc]

theorem replaceBrace_length (l : List Char) :
    (replaceBrace l).length = l.length + l.count '{' := by
  induction l with
  | nil => rfl
  | cons c cs ih =>
    by_cases hc : c = '{'
    · subst hc
      rw [replaceBrace_cons_brace]
      simp only [List.length_cons, List.count_cons_self, ih]
      omega
    · rw [replaceBrace_cons_ne hc, count_cons_ne hc]
      simp only [List.length_cons, ih]
      omega

theorem replaceBrace_count_comma (l : List Char) :
    (replaceBrace l).count ',' = l.count ',' + l.count '{' := by
  induction l with
  | nil => rfl
  | cons c cs ih =>
    by_cases hc : c = '{'
    · subst hc
      rw [replaceBrace_cons_brace, List.count_cons_self, count_cons_ne (by decide),
        count_cons_ne (by decide), List.count_cons_self, ih]
      omega
    · rw [replaceBrace_cons_ne hc, count_cons_ne hc]
      by_cases hc2 : c = ','
      · subst hc2
        rw [List.count_cons_self, List.count_cons_self, ih]
        omega
      · rw [count_cons_ne hc2, count_cons_ne hc2, ih]

/-- Sum of the part lengths of a split. -/
theorem splitCh_sum {sep : Char} :
    ∀ l : List Char, ((splitCh sep l).map List.length).sum + l.count sep = l.length := by
  intro l
  induction l with
  | nil => simp [splitCh]
  | cons c cs ih =>
    by_cases hc : c = sep
    · subst hc
      rw [splitCh_cons_self]
      simp only [List.map_cons, List.sum_cons, List.length_nil, List.count_cons_self,
        List.length_cons]
      omega
    · rw [splitCh_cons_ne hc]
      rcases hsp : splitCh sep cs with _ | ⟨h, t⟩
      · exact absurd hsp (splitCh_ne_nil sep cs)
      · rw [hsp] at ih
        rw [count_cons_ne hc]
        simp only [List.map_cons, List.sum_cons, List.length_cons]
        simp only [List.map_cons, List.sum_cons] at ih
        omega

/-- With no commas in `l`, the comma-split of `replaceBrace l` is the
brace-split of `l` with the brace glued back onto every later chunk. -/
theorem replaceBrace_split :
    ∀ {l : List Char}, l.count ',' = 0 →
      ∀ {b0 : List Char} {bs : List (List Char)}, splitCh '{' l = b0 :: bs →
        splitCh ',' (replaceBrace l) = b0 :: bs.map (fun b => '{' :: b) := by
  intro l
  induction l with
  | nil =>
    intro _ b0 bs hb
    simp only [splitCh] at hb
    cases hb
    rfl
  | cons c cs ih =>
    intro hcount b0 bs hb
    by_cases hc : c = '{'
    · subst hc
      have hcs : cs.count ',' = 0 := by
        rw [count_cons_ne (by decide)] at hcount
        exact hcount
      rw [splitCh_cons_self] at hb
      rcases hsp : splitCh '{' cs with _ | ⟨h, t⟩
      · exact absurd hsp (splitCh_ne_nil _ cs)
      · rw [hsp] at hb
        cases hb
        rw [replaceBrace_cons_brace, splitCh_cons_self,
          splitCh_cons_ne (by decide), ih hcs hsp]
        rfl
    · have hc2 : c ≠ ',' := by
        intro h
        subst h
        rw [List.count_cons_self] at hcount
        omega
      have hcs : cs.count ',' = 0 := by
        rw [count_cons_ne hc2] at hcount
        exact hcount
      rw [splitCh_cons_ne hc] at hb
      rcases hsp : splitCh '{' cs with _ | ⟨h, t⟩
      · exact absurd hsp (splitCh_ne_nil _ cs)
      · rw [hsp] at hb
        cases hb
        rw [replaceBrace_cons_ne hc, splitCh_cons_ne hc2, ih hcs hsp]

theorem sum_filter_le (F : List (List Char)) :
    (((F.filter (fun v => v ≠ [])).map List.length).sum) ≤ ((F.map List.length).sum) := by
  induction F with
  | nil => simp
  | cons a t ih =>
    rw [List.filter_cons]
    by_cases h : a = []
    · rw [if_neg (by simp [h])]
      simp only [List.map_cons, List.sum_cons]
      omega
    · rw [if_pos (by simp [h])]
      simp only [List.map_cons, List.sum_cons]
      omega

theorem mem_two_nonempty_sum {F : List (List Char)} {p : List Char}
    (hp : p ∈ F) (h2 : 2 ≤ F.length) (hne : ∀ x ∈ F, x ≠ []) :
    p.length + 1 ≤ ((F.map List.length).sum) := by
  obtain ⟨s1, t1, rfl⟩ := List.append_of_mem hp
  rcases s1 with _ | ⟨x, s2⟩
  · rcases t1 with _ | ⟨y, t2⟩
    · simp at h2
    · have hy : y ≠ [] := hne y (by simp)
      have : 1 ≤ y.length := List.length_pos.mpr hy
      simp only [List.nil_append, List.map_cons, List.sum_cons]
      omega
  · have hx : x ≠ [] := hne x (by simp)
    have : 1 ≤ x.length := List.length_pos.mpr hx
    simp only [List.cons_append, List.map_cons, List.sum_cons, List.map_append,
      List.sum_append]
    omega

set_option linter.unnecessarySeqFocus false

theorem pctDecode_length_le (l : List Char) : (pctDecode l).length ≤ l.length := by
  induction l using pctDecode.induct <;> simp_all [pctDecode] <;> omega

theorem strContains_mem {s : String} {c : Char} (h : strContains s c = true) : c ∈ s.data := by
  unfold strContains at h
  simpa using h

/-- Every part of a pipe split is strictly shorter than a string that
contains a pipe. -/
theorem jsSplit_mem_lt {s x : String} (hx : x ∈ jsSplit s '|')
    (hc : strContains s '|' = true) : x.length < s.length := by
  unfold jsSplit at hx
  obtain ⟨p, hp, rfl⟩ := List.mem_map.mp hx
  show p.length < s.data.length
  exact splitCh_mem_lt hp (strContains_mem hc)

/-- Every segment of the implicit-AND brace split is strictly shorter than
the token, provided the token has the AND shape. -/
theorem braceSplit_mem_lt {s x : String} (hx : x ∈ braceSplit s)
    (hA : isANDFilter s = true) : x.length < s.length := by
  unfold braceSplit at hx
  obtain ⟨p, hp, rfl⟩ := List.mem_map.mp hx
  have hpmem : p ∈ splitCh ',' (replaceBrace s.data) := (List.mem_filter.mp hp).1
  show p.length < s.data.length
  by_cases hcomma : s.data.count ',' = 0
  · rcases hsp : splitCh '{' s.data with _ | ⟨b0, bs⟩
    · exact absurd hsp (splitCh_ne_nil _ _)
    have hsplit := replaceBrace_split hcomma hsp
    have hsum := @splitCh_sum ',' (replaceBrace s.data)
    rw [replaceBrace_length, replaceBrace_count_comma, hcomma] at hsum
    have hAgt : 1 < ((splitCh '{' s.data).filter (fun v => v ≠ [])).length := by
      unfold isANDFilter at hA
      simp only [Bool.and_eq_true, decide_eq_true_eq] at hA
      exact hA.2
    rw [hsp, List.filter_cons] at hAgt
    have hmapfil :
        ((bs.map (fun b => '{' :: b)).filter (fun v => v ≠ [])) =
          bs.map (fun b => '{' :: b) := by
      apply List.filter_eq_self.mpr
      intro a ha
      obtain ⟨b, _, rfl⟩ := List.mem_map.mp ha
      simp
    have hFlen : 2 ≤ ((splitCh ',' (replaceBrace s.data)).filter (fun v => v ≠ [])).length := by
      rw [hsplit, List.filter_cons, hmapfil]
      have hble : (bs.filter (fun v => v ≠ [])).length ≤ bs.length :=
        List.length_filter_le _ bs
      by_cases hb0 : b0 = []
      · rw [if_neg (by simp [hb0])] at hAgt ⊢
        simp only [List.length_map] at hAgt ⊢
        omega
      · rw [if_pos (by simp [hb0])] at hAgt ⊢
        simp only [List.length_cons, List.length_map] at hAgt ⊢
        omega
    have hFne : ∀ y ∈ (splitCh ',' (replaceBrace s.data)).filter (fun v => v ≠ []), y ≠ [] := by
      intro y hy
      have := (List.mem_filter.mp hy).2
      simpa using this
    have h1 := mem_two_nonempty_sum hp hFlen hFne
    have h2 := sum_filter_le (splitCh ',' (replaceBrace s.data))
    omega
  · have h1 := splitCh_mem_length hpmem
    rw [replaceBrace_length, replaceBrace_count_comma] at h1
    have : 1 ≤ s.data.count ',' := Nat.one_le_iff_ne_zero.mpr hcomma
    omega

/-- The residual value after a brace tag is strictly shorter than the
token. -/
theorem tagValue_lt {s : String} (h : s ≠ ("")) : (tagValue s).length < s.length := by
  have h1 : 1 ≤ s.length := strLen_pos h
  show (((s.data.drop 1).dropWhile (fun c => c ≠ '}')).drop 1).length < s.length
  have h2 : ((s.data.drop 1).dropWhile (fun c => c ≠ '}')).length ≤ (s.data.drop 1).length :=
    (List.dropWhile_sublist _).length_le
  rw [strLen_data] at *
  simp only [List.length_drop] at *
  omega

theorem elemMatch_data {s : String} (h : isElementMatchFilter s = true) :
    ∃ rest : List Char, s.data = ("{elemMatch}").data ++ rest := by
  unfold isElementMatchFilter jsStartsWith at h
  obtain ⟨t, ht⟩ := List.isPrefixOf_iff_prefix.mp h
  exact ⟨t, ht.symm⟩

theorem tagValue_elemMatch (rest : List Char) :
    tagValue ⟨("{elemMatch}").data ++ rest⟩ = ⟨rest⟩ := rfl

theorem elemMatch_length {s : String} (h : isElementMatchFilter s = true) :
    11 ≤ s.length ∧ (tagValue s).length + 11 = s.length := by
  obtain ⟨rest, hrest⟩ := elemMatch_data h
  rcases s with ⟨l⟩
  simp only at hrest
  subst hrest
  refine ⟨by simp [strLen_data], ?_⟩
  rw [tagValue_elemMatch]
  simp [strLen_data]

/-- Every value of the element-match parameter object is at most as long as
the parsed subquery string. -/
theorem parseQS_val_le {s : String} {kv : String × String} (h : kv ∈ parseQS s) :
    kv.2.length ≤ s.length := by
  unfold parseQS at h
  obtain ⟨seg, hseg, heq⟩ := List.mem_map.mp h
  have hmem : seg ∈ splitCh '&' s.data := (List.mem_filter.mp hseg).1
  have h1 : seg.length ≤ s.data.length := by
    have := splitCh_mem_length hmem
    omega
  have h3 : (pctDecode (splitEqAt seg).2).length ≤ (splitEqAt seg).2.length :=
    pctDecode_length_le _
  have h4 : (splitEqAt seg).2.length ≤ seg.length := by
    unfold splitEqAt
    have h5 : (seg.dropWhile (fun c => c ≠ '=')).length ≤ seg.length :=
      (List.dropWhile_sublist _).length_le
    simp only [List.length_drop]
    omega
  subst heq
  show (pctDecode (splitEqAt seg).2).length ≤ s.length
  rw [strLen_data]
  omega

theorem setKey_forall {α : Type} {P : α → Prop} {m : List (String × α)} {k : String} {v : α}
    (hm : ∀ kv ∈ m, P kv.2) (hv : P v) : ∀ kv ∈ setKey m k v, P kv.2 := by
  intro kv hkv
  unfold setKey at hkv
  by_cases hany : m.any (fun kv => kv.1 = k)
  · rw [if_pos hany] at hkv
    obtain ⟨kv0, hkv0, heq⟩ := List.mem_map.mp hkv
    by_cases h0 : kv0.1 = k
    · rw [if_pos (by simp [h0])] at heq
      rw [← heq]
      exact hv
    · rw [if_neg (by simp [h0])] at heq
      rw [← heq]
      exact hm kv0 hkv0
  · rw [if_neg hany] at hkv
    rcases List.mem_append.mp hkv with hkv | hkv
    · exact hm kv hkv
    · simp only [List.mem_singleton] at hkv
      rw [hkv]
      exact hv

theorem foldl_setKey_forall {α : Type} (P : α → Prop) :
    ∀ (pairs : List (String × α)) (acc : List (String × α)),
      (∀ kv ∈ acc, P kv.2) → (∀ kv ∈ pairs, P kv.2) →
      ∀ kv ∈ pairs.foldl (fun a kv => setKey a kv.1 kv.2) acc, P kv.2 := by
  intro pairs
  induction pairs with
  | nil =>
    intro acc hacc _
    exact hacc
  | cons p rest ih =>
    intro acc hacc hall
    simp only [List.foldl_cons]
    exact ih _ (setKey_forall hacc (hall p (by simp)))
      (fun kv hkv => hall kv (by simp [hkv]))

/-- The values of the element-match parameter object are at most as long as
the element-match residual. -/
theorem elemParams_val_le {v : String} {kv : String × RawVal} (h : kv ∈ elemParams v)
    {x : String} (hx : x ∈ valStrings kv.2) : x.length ≤ v.length := by
  unfold elemParams at h
  obtain ⟨kv0, hkv0, heq⟩ := List.mem_map.mp h
  have hP : ∀ kv1 ∈ ((parseQS (jsReplaceChar '#' '&' v)).foldl
      (fun (acc : List (String × String)) kv => setKey acc kv.1 kv.2) []),
      kv1.2.length ≤ v.length := by
    apply foldl_setKey_forall (fun (x : String) => x.length ≤ v.length)
    · intro kv1 hkv1
      cases hkv1
    · intro kv1 hkv1
      have := parseQS_val_le hkv1
      have hlen : (jsReplaceChar '#' '&' v).length = v.length := by
        unfold jsReplaceChar
        rw [strLen_data, strLen_data]
        simp
      omega
  have := hP kv0 hkv0
  rw [← heq] at hx
  simp only [valStrings, List.mem_singleton] at hx
  rw [hx]
  exact this

theorem le_maxLen {l : List String} {x : String} (h : x ∈ l) : x.length ≤ maxLen l := by
  induction l with
  | nil => cases h
  | cons a t ih =>
    rcases List.mem_cons.mp h with h | h
    · subst h
      exact Nat.le_max_left _ _
    · exact Nat.le_trans (ih h) (Nat.le_max_right _ _)

theorem le_queryBound {q : RawQuery} {kv : String × RawVal} (h : kv ∈ q)
    {x : String} (hx : x ∈ valStrings kv.2) : x.length ≤ queryBound q := by
  induction q with
  | nil => cases h
  | cons a t ih =>
    rcases List.mem_cons.mp h with h | h
    · subst h
      exact Nat.le_trans (le_maxLen hx) (Nat.le_max_left _ _)
    · exact Nat.le_trans (ih h) (Nat.le_max_right _ _)

/-! ## Congruence of the recursion bodies in their recursive calls -/

theorem mapBody_congr {k1 k2 : String → Except JSErr JSValue} :
    ∀ {l : List String}, (∀ x ∈ l, k1 x = k2 x) → mapBody k1 l = mapBody k2 l := by
  intro l
  induction l with
  | nil => intro _; rfl
  | cons x xs ih =>
    intro h
    simp only [mapBody]
    rw [h x (by simp), ih (fun y hy => h y (by simp [hy]))]

theorem impBody_congr {kM1 kM2 : List String → Except JSErr (List JSValue)} {l : List String}
    (h : kM1 l = kM2 l) : impBody kM1 l = impBody kM2 l := by
  unfold impBody
  rw [h]

theorem filFold_congr {kC1 kC2 : String → Except JSErr JSValue}
    {kI1 kI2 : List String → Except JSErr JSValue} :
    ∀ {q : RawQuery} {obj : ObjMap},
      (∀ kv ∈ q, ∀ sv, kv.2 = RawVal.rstr sv → kC1 sv = kC2 sv) →
      (∀ kv ∈ q, ∀ arr, kv.2 = RawVal.rarr arr → kI1 arr = kI2 arr) →
      filFold kC1 kI1 obj q = filFold kC2 kI2 obj q := by
  intro q
  induction q with
  | nil =>
    intro obj _ _
    rfl
  | cons kv rest ih =>
    intro obj hC hI
    simp only [filFold]
    have hstep : filStep kC1 kI1 obj kv.1 kv.2 = filStep kC2 kI2 obj kv.1 kv.2 := by
      rcases hv : kv.2 with sv | arr
      · simp only [filStep]
        rw [hC kv (by simp) sv hv]
      · simp only [filStep]
        rw [hI kv (by simp) arr hv]
    rw [hstep]
    rcases h2 : filStep kC2 kI2 obj kv.1 kv.2 with e | obj2
    · rfl
    · exact ih (fun kv2 hm => hC kv2 (by simp [hm])) (fun kv2 hm => hI kv2 (by simp [hm]))

theorem filBody_congr {kC1 kC2 : String → Except JSErr JSValue}
    {kI1 kI2 : List String → Except JSErr JSValue} {q : RawQuery}
    (hC : ∀ kv ∈ q, ∀ sv, kv.2 = RawVal.rstr sv → kC1 sv = kC2 sv)
    (hI : ∀ kv ∈ q, ∀ arr, kv.2 = RawVal.rarr arr → kI1 arr = kI2 arr) :
    filBody kC1 kI1 q = filBody kC2 kI2 q := by
  unfold filBody
  exact filFold_congr (fun kv hkv => hC kv (List.mem_filter.mp hkv).1)
    (fun kv hkv => hI kv (List.mem_filter.mp hkv).1)

theorem classifyBody_congr {kC1 kC2 : String → Except JSErr JSValue}
    {kF1 kF2 : RawQuery → Except JSErr ObjMap}
    {kI1 kI2 : List String → Except JSErr JSValue}
    {kM1 kM2 : List String → Except JSErr (List JSValue)} (s : String)
    (hC : ∀ x : String, x.length < s.length → kC1 x = kC2 x)
    (hF : ∀ q : RawQuery, 11 ≤ s.length →
      (∀ kv ∈ q, ∀ x ∈ valStrings kv.2, x.length + 11 ≤ s.length) → kF1 q = kF2 q)
    (hI : ∀ l : List String, 1 ≤ s.length → (∀ x ∈ l, x.length < s.length) → kI1 l = kI2 l)
    (hM : ∀ l : List String, 1 ≤ s.length → (∀ x ∈ l, x.length < s.length) → kM1 l = kM2 l) :
    classifyBody kC1 kF1 kI1 kM1 s = classifyBody kC2 kF2 kI2 kM2 s := by
  unfold classifyBody
  by_cases h0 : s = ("")
  · rw [if_pos h0, if_pos h0]
  rw [if_neg h0, if_neg h0]
  by_cases hJ : isJson s = true
  · rw [if_pos hJ, if_pos hJ]
  rw [if_neg hJ, if_neg hJ]
  by_cases hEM : isElementMatchFilter s = true
  · rw [if_pos hEM, if_pos hEM]
    by_cases hv : tagValue s = ("")
    · rw [if_pos hv, if_pos hv]
    rw [if_neg hv, if_neg hv]
    have h11 := (elemMatch_length hEM).1
    have hlen := (elemMatch_length hEM).2
    rw [hF (elemParams (tagValue s)) h11
      (by
        intro kv hkv x hx
        have := elemParams_val_le hkv hx
        omega)]
  rw [if_neg hEM, if_neg hEM]
  by_cases hL : isLogicalOperator s = true
  · rw [if_pos hL, if_pos hL, hC (tagValue s) (tagValue_lt h0)]
  rw [if_neg hL, if_neg hL]
  by_cases hO : isORFilter s = true
  · rw [if_pos hO, if_pos hO]
    have hcont : strContains s '|' = true := by
      simp only [isORFilter, Bool.and_eq_true] at hO
      exact hO.1
    rw [hM (jsSplit s '|') (strLen_pos h0) (fun x hx => jsSplit_mem_lt hx hcont)]
  rw [if_neg hO, if_neg hO]
  by_cases hA : isANDFilter s = true
  · rw [if_pos hA, if_pos hA,
      hI (braceSplit s) (strLen_pos h0) (fun x hx => braceSplit_mem_lt hx hA)]
  rw [if_neg hA, if_neg hA]
  by_cases hCmp : isComparisonFilter s = true
  · rw [if_pos hCmp, if_pos hCmp]
    by_cases hv : tagValue s = ("")
    · rw [if_pos hv, if_pos hv]
    rw [if_neg hv, if_neg hv, hC (tagValue s) (tagValue_lt h0)]
  rw [if_neg hCmp, if_neg hCmp]

/-! ## Fuel stabilization: above a linear bound the fuel is irrelevant -/

theorem stabAll : ∀ n : Nat,
    (∀ s m, 3 * s.length + 1 ≤ n → 3 * s.length + 1 ≤ m →
      getSimpleFilterValueF n s = getSimpleFilterValueF m s) ∧
    (∀ (l : List String) m, 1 ≤ n → 1 ≤ m →
      (∀ x ∈ l, 3 * x.length + 2 ≤ n) → (∀ x ∈ l, 3 * x.length + 2 ≤ m) →
      getMapOfOperatorsWithValuesF n l = getMapOfOperatorsWithValuesF m l) ∧
    (∀ (l : List String) m, 2 ≤ n → 2 ≤ m →
      (∀ x ∈ l, 3 * x.length + 3 ≤ n) → (∀ x ∈ l, 3 * x.length + 3 ≤ m) →
      getImplicitANDValueF n l = getImplicitANDValueF m l) ∧
    (∀ (q : RawQuery) m, 3 ≤ n → 3 ≤ m →
      (∀ kv ∈ q, ∀ x ∈ valStrings kv.2, 3 * x.length + 4 ≤ n) →
      (∀ kv ∈ q, ∀ x ∈ valStrings kv.2, 3 * x.length + 4 ≤ m) →
      getFilterF n q = getFilterF m q) := by
  intro n
  induction n using Nat.strong_induction_on with
  | _ n ih =>
    refine ⟨?_, ?_, ?_, ?_⟩
    · intro s m hn hm
      rcases n with _ | n'
      · omega
      rcases m with _ | m'
      · omega
      simp only [getSimpleFilterValueF]
      apply classifyBody_congr s
      · intro x hx
        exact (ih n' (by omega)).1 x m' (by omega) (by omega)
      · intro q h11 hq
        exact (ih n' (by omega)).2.2.2 q m' (by omega) (by omega)
          (fun kv hkv x hx => by have := hq kv hkv x hx; omega)
          (fun kv hkv x hx => by have := hq kv hkv x hx; omega)
      · intro l h1 hl
        exact (ih n' (by omega)).2.2.1 l m' (by omega) (by omega)
          (fun x hx => by have := hl x hx; omega)
          (fun x hx => by have := hl x hx; omega)
      · intro l h1 hl
        exact (ih n' (by omega)).2.1 l m' (by omega) (by omega)
          (fun x hx => by have := hl x hx; omega)
          (fun x hx => by have := hl x hx; omega)
    · intro l m h1n h1m hxn hxm
      rcases n with _ | n'
      · omega
      rcases m with _ | m'
      · omega
      simp only [getMapOfOperatorsWithValuesF]
      apply mapBody_congr
      intro x hx
      exact (ih n' (by omega)).1 x m' (by have := hxn x hx; omega)
        (by have := hxm x hx; omega)
    · intro l m h2n h2m hxn hxm
      rcases n with _ | n'
      · omega
      rcases m with _ | m'
      · omega
      simp only [getImplicitANDValueF]
      apply impBody_congr
      exact (ih n' (by omega)).2.1 l m' (by omega) (by omega)
        (fun x hx => by have := hxn x hx; omega)
        (fun x hx => by have := hxm x hx; omega)
    · intro q m h3n h3m hxn hxm
      rcases n with _ | n'
      · omega
      rcases m with _ | m'
      · omega
      simp only [getFilterF]
      apply filBody_congr
      · intro kv hkv sv hsv
        apply (ih n' (by omega)).1 sv m'
        · have := hxn kv hkv sv (by rw [hsv]; simp [valStrings])
          omega
        · have := hxm kv hkv sv (by rw [hsv]; simp [valStrings])
          omega
      · intro kv hkv arr harr
        exact (ih n' (by omega)).2.2.1 arr m' (by omega) (by omega)
          (fun x hx => by
            have := hxn kv hkv x (by rw [harr]; simpa [valStrings] using hx)
            omega)
          (fun x hx => by
            have := hxm kv hkv x (by rw [harr]; simpa [valStrings] using hx)
            omega)

theorem getSimpleFilterValueF_eq {s : String} {n : Nat} (hn : 3 * s.length + 1 ≤ n) :
    getSimpleFilterValueF n s = getSimpleFilterValue s :=
  (stabAll n).1 s (3 * s.length + 1) hn (Nat.le_refl _)

theorem getMapOfOperatorsWithValuesF_eq {l : List String} {n : Nat} (h1 : 1 ≤ n)
    (hx : ∀ x ∈ l, 3 * x.length + 2 ≤ n) :
    getMapOfOperatorsWithValuesF n l = getMapOfOperatorsWithValues l :=
  (stabAll n).2.1 l (3 * maxLen l + 2) h1 (by omega)
    hx (fun x hxm => by have := le_maxLen hxm; omega)

theorem getImplicitANDValueF_eq {l : List String} {n : Nat} (h2 : 2 ≤ n)
    (hx : ∀ x ∈ l, 3 * x.length + 3 ≤ n) :
    getImplicitANDValueF n l = getImplicitANDValue l :=
  (stabAll n).2.2.1 l (3 * maxLen l + 3) h2 (by omega)
    hx (fun x hxm => by have := le_maxLen hxm; omega)

theorem getFilterF_eq {q : RawQuery} {n : Nat} (h3 : 3 ≤ n)
    (hx : ∀ kv ∈ q, ∀ x ∈ valStrings kv.2, 3 * x.length + 4 ≤ n) :
    getFilterF n q = getFilter q :=
  (stabAll n).2.2.2 q (3 * queryBound q + 4) h3 (by omega)
    hx (fun kv hkv x hxv => by have := le_queryBound hkv hxv; omega)

/-! ## Denotational unfolding of the canonical functions -/

/-- The canonical classifier satisfies the body equation of
`getSimpleFilterValue` with the canonical functions at every recursive call
site. -/
theorem getSimpleFilterValue_unfold (s : String) :
    getSimpleFilterValue s =
      classifyBody getSimpleFilterValue getFilter getImplicitANDValue
        getMapOfOperatorsWithValues s := by
  show getSimpleFilterValueF (3 * s.length + 1) s = _
  simp only [getSimpleFilterValueF]
  apply classifyBody_congr s
  · intro x hx
    exact getSimpleFilterValueF_eq (by omega)
  · intro q h11 hq
    exact getFilterF_eq (by omega)
      (fun kv hkv x hx => by have := hq kv hkv x hx; omega)
  · intro l h1 hl
    exact getImplicitANDValueF_eq (by omega) (fun x hx => by have := hl x hx; omega)
  · intro l h1 hl
    exact getMapOfOperatorsWithValuesF_eq (by omega) (fun x hx => by have := hl x hx; omega)

/-- The canonical `getFilter` satisfies the body equation of `getFilter`. -/
theorem getFilter_unfold (q : RawQuery) :
    getFilter q = filBody getSimpleFilterValue getImplicitANDValue q := by
  show getFilterF (3 * queryBound q + 4) q = _
  simp only [getFilterF]
  apply filBody_congr
  · intro kv hkv sv hsv
    apply getSimpleFilterValueF_eq
    have := le_queryBound hkv (show sv ∈ valStrings kv.2 by rw [hsv]; simp [valStrings])
    omega
  · intro kv hkv arr harr
    apply getImplicitANDValueF_eq (by omega)
    intro x hx
    have := le_queryBound hkv (show x ∈ valStrings kv.2 by rw [harr]; simpa [valStrings] using hx)
    omega

/-- The canonical `getImplicitANDValue` satisfies its body equation. -/
theorem getImplicitANDValue_unfold (l : List String) :
    getImplicitANDValue l = impBody getMapOfOperatorsWithValues l := by
  show getImplicitANDValueF (3 * maxLen l + 3) l = _
  simp only [getImplicitANDValueF]
  apply impBody_congr
  apply getMapOfOperatorsWithValuesF_eq (by omega)
  intro x hx
  have := le_maxLen hx
  omega

/-- The canonical `getMapOfOperatorsWithValues` satisfies its body
equation. -/
theorem getMapOfOperatorsWithValues_unfold (l : List String) :
    getMapOfOperatorsWithValues l = mapBody getSimpleFilterValue l := by
  show getMapOfOperatorsWithValuesF (3 * maxLen l + 2) l = _
  simp only [getMapOfOperatorsWithValuesF]
  apply mapBody_congr
  intro x hx
  apply getSimpleFilterValueF_eq
  have := le_maxLen hx
  omega

/-! ## Decimal index keys -/

theorem toNat_ofNat_digit {d : Nat} (hd : d < 10) : (Char.ofNat (48 + d)).toNat = 48 + d := by
  interval_cases d <;> decide

theorem decAux_val : ∀ (fuel n : Nat), n ≤ fuel → decVal (decDigitsAux fuel n) = n := by
  intro fuel
  induction fuel with
  | zero =>
    intro n hn
    interval_cases n
    rfl
  | succ f ih =>
    intro n hn
    rcases n with _ | n'
    · rfl
    · have hd : (n' + 1) % 10 < 10 := Nat.mod_lt _ (by norm_num)
      have hdiv : (n' + 1) / 10 ≤ f := by
        have : (n' + 1) / 10 < n' + 1 := Nat.div_lt_self (by omega) (by norm_num)
        omega
      show decVal (Char.ofNat (48 + (n' + 1) % 10) :: decDigitsAux f ((n' + 1) / 10)) = n' + 1
      simp only [decVal, toNat_ofNat_digit hd, ih _ hdiv]
      omega

theorem natToDec_inj : Function.Injective natToDec := by
  intro m n h
  unfold natToDec at h
  by_cases hm : m = 0 <;> by_cases hn : n = 0
  · omega
  · rw [if_pos hm, if_neg hn] at h
    have hds : decDigitsAux n n = [('0')] := by
      have := congrArg List.reverse (congrArg String.data h)
      simpa using this.symm
    have hv := decAux_val n n (Nat.le_refl n)
    rw [hds] at hv
    simp [decVal] at hv
    omega
  · rw [if_neg hm, if_pos hn] at h
    have hds : decDigitsAux m m = [('0')] := by
      have := congrArg List.reverse (congrArg String.data h)
      simpa using this
    have hv := decAux_val m m (Nat.le_refl m)
    rw [hds] at hv
    simp [decVal] at hv
    omega
  · rw [if_neg hm, if_neg hn] at h
    have hds : decDigitsAux m m = decDigitsAux n n := by
      have := congrArg List.reverse (congrArg String.data h)
      simpa using this
    have h1 := decAux_val m m (Nat.le_refl m)
    have h2 := decAux_val n n (Nat.le_refl n)
    rw [hds] at h1
    omega

theorem find?_key_of_nodup {α : Type} :
    ∀ {l : List (String × α)}, (l.map (fun kv => kv.1)).Nodup →
      ∀ {p : String × α}, p ∈ l → l.find? (fun kv => kv.1 = p.1) = some p := by
  intro l
  induction l with
  | nil =>
    intro _ p hp
    cases hp
  | cons a t ih =>
    intro hnd p hp
    simp only [List.map_cons, List.nodup_cons] at hnd
    rcases List.mem_cons.mp hp with hp | hp
    · subst hp
      exact List.find?_cons_of_pos _ (by simp)
    · have ha : ¬(a.1 = p.1) := by
        intro hk
        exact hnd.1 (hk ▸ List.mem_map.mpr ⟨p, hp, rfl⟩)
      rw [List.find?_cons_of_neg _ (by simpa using ha)]
      exact ih hnd.2 hp

theorem strProps_keys_nodup (w : String) :
    ((strProps w).map (fun kv => kv.1)).Nodup := by
  unfold strProps
  rw [List.map_map]
  exact (List.nodup_range _).map natToDec_inj

theorem jsGetProp_strProps {w : String} {p : String × JSValue} (hp : p ∈ strProps w) :
    jsGetProp (.vStr w) p.1 = p.2 := by
  show (((strProps w).find? (fun kv => kv.1 = p.1)).map (fun kv => kv.2)).getD .vNull = p.2
  rw [find?_key_of_nodup (strProps_keys_nodup w) hp]
  rfl

theorem foldl_congr_mem {α β : Type} {f g : β → α → β} :
    ∀ {l : List α} {init : β}, (∀ b, ∀ a ∈ l, f b a = g b a) →
      l.foldl f init = l.foldl g init := by
  intro l
  induction l with
  | nil =>
    intro _ _
    rfl
  | cons x xs ih =>
    intro init h
    simp only [List.foldl_cons]
    rw [h init x (by simp)]
    exact ih (fun b a ha => h b a (by simp [ha]))

/-- Merging a classified plain string copies its indexed characters onto
the accumulator. -/
theorem impStep_vStr (acc : ObjMap) (w : String) :
    impStep acc (.vStr w) = .ok ((strProps w).foldl (fun a p => setKey a p.1 p.2) acc) := by
  simp only [impStep, jsKeys]
  congr 1
  rw [List.foldl_map]
  exact foldl_congr_mem (fun b p hp => by rw [jsGetProp_strProps hp])

/-- Merging a classified single-operator object assigns its unique key. -/
theorem impStep_singleObj (acc : ObjMap) (k : String) (w : JSValue) :
    impStep acc (.vObj [(k, w)]) = .ok (setKey acc k w) := by
  simp only [impStep, jsKeys]
  have hget : jsGetProp (.vObj [(k, w)]) k = w := by
    show ((([(k, w)].find? (fun kv => kv.1 = k))).map (fun kv => kv.2)).getD .vNull = w
    rw [List.find?_cons_of_pos _ (by simp)]
    rfl
  simp [hget]

/-! ## Claim theorems -/

/-- C1: the claim that compiling a raw filter never raises fails on the
code: a malformed element inside an array value (`a: ["{gt}"]`), or a
malformed segment inside a brace-concatenated token (`"{gt}5{lt}"`),
makes `getImplicitANDValue` apply `Object.keys` to `null`, which throws a
`TypeError` instead of dropping the key. -/
theorem C1_malformed_array_element_throws :
    getFilter [(("a"), RawVal.rarr [("{gt}")])] = .error .typeError ∧
    getSimpleFilterValue ("{gt}5{lt}") = .error .typeError :=
  ⟨rfl, rfl⟩

/-- C2 counterexample: `parse` is not side-effect-free — compiling
`{ limit: "10", a: "b" }` removes the `limit` entry from the caller's
query object, so the final state of the input differs from the initial
one. -/
theorem C2_counterexample_parse_mutates :
    parseWithEffect [(("limit"), RawVal.rstr ("10")), (("a"), RawVal.rstr ("b"))] =
      .ok (⟨10, 0, [], [], [(("a"), JSValue.vStr ("b"))]⟩,
        [(("a"), RawVal.rstr ("b"))]) ∧
    ([(("a"), RawVal.rstr ("b"))] : RawQuery) ≠
      [(("limit"), RawVal.rstr ("10")), (("a"), RawVal.rstr ("b"))] :=
  ⟨rfl, by decide⟩

/-- C2 amended: the compilation mutates the input mapping exactly by
deleting the six reserved keys (`limit, skip, page, select, sort,
populate`); every non-reserved entry survives in place, and an input
without reserved keys is left unchanged. -/
theorem C2_amended_mutation_is_reserved_key_removal {q : RawQuery} {m : MongoQueryModel}
    {r : RawQuery} (h : parseWithEffect q = .ok (m, r)) :
    r = stripReserved q ∧
    (∀ kv ∈ q, kv.1 ∉ reservedKeys → kv ∈ r) ∧
    ((∀ kv ∈ q, kv.1 ∉ reservedKeys) → r = q) := by
  have hr : r = stripReserved q := by
    unfold parseWithEffect at h
    rcases hp : parse q with e | m0
    · rw [hp] at h
      cases h
    · rw [hp] at h
      cases h
      rfl
  subst hr
  refine ⟨rfl, ?_, ?_⟩
  · intro kv hkv hnot
    exact List.mem_filter.mpr ⟨hkv, by simpa using hnot⟩
  · intro hall
    apply List.filter_eq_self.mpr
    intro kv hkv
    simpa using hall kv hkv

/-- C2 amended, witness: on `{ limit: "10", a: "b" }` the residual input is
exactly the reserved-key-stripped mapping. -/
theorem C2_amended_witness :
    ([(("a"), RawVal.rstr ("b"))] : RawQuery) =
      stripReserved [(("limit"), RawVal.rstr ("10")), (("a"), RawVal.rstr ("b"))] :=
  (C2_amended_mutation_is_reserved_key_removal (show
    parseWithEffect [(("limit"), RawVal.rstr ("10")), (("a"), RawVal.rstr ("b"))] =
      .ok (⟨10, 0, [], [], [(("a"), JSValue.vStr ("b"))]⟩,
        [(("a"), RawVal.rstr ("b"))]) from rfl)).1

/-- C4 counterexample: on the claimed raw filter the compiler anchors
`"*jo"` as `{ $regex: "^jo" }`, not `{ $regex: "jo$" }`, so the claimed
output is not produced. -/
theorem C4_counterexample_star_anchor :
    getFilter rawFilterC4 ≠
      .ok [(("name"), .vObj [(("$regex"), .vStr ("jo$")), (("$options"), .vStr ("i"))]),
           (("age"), .vObj [(("$gte"), .vNum 18), (("$lte"), .vNum 65)]),
           (("status"), .vObj [(("$or"), .vArr [.vStr ("a"), .vStr ("b")])])] := by
  have hval : getFilter rawFilterC4 =
      .ok [(("name"), .vObj [(("$regex"), .vStr ("^jo")), (("$options"), .vStr ("i"))]),
           (("age"), .vObj [(("$gte"), .vNum 18), (("$lte"), .vNum 65)]),
           (("status"), .vObj [(("$or"), .vArr [.vStr ("a"), .vStr ("b")])])] := rfl
  rw [hval]
  simp

/-- C4 amended: compiling `{ name: "*jo", age: "{gte}18{lte}65",
status: "a|b" }` yields exactly the claimed tree except that the leading
wildcard produces the start anchor `{ $regex: "^jo" }`. -/
theorem C4_amended_example_filter :
    getFilter rawFilterC4 =
      .ok [(("name"), .vObj [(("$regex"), .vStr ("^jo")), (("$options"), .vStr ("i"))]),
           (("age"), .vObj [(("$gte"), .vNum 18), (("$lte"), .vNum 65)]),
           (("status"), .vObj [(("$or"), .vArr [.vStr ("a"), .vStr ("b")])])] := rfl

/-- C5 counterexample: for the logical tag `{and}` with empty value the
classifier does not return `null` — it returns `{ $and: null }` — and the
filter compiler keeps the key instead of omitting it. -/
theorem C5_counterexample_logical_empty :
    getSimpleFilterValue ("{and}") ≠ .ok .vNull ∧
    getFilter [(("k"), RawVal.rstr ("{and}"))] ≠ .ok [] := by
  constructor
  · have h : getSimpleFilterValue ("{and}") = .ok (.vObj [(("$and"), .vNull)]) := rfl
    rw [h]
    simp
  · have h : getFilter [(("k"), RawVal.rstr ("{and}"))] =
        .ok [(("k"), .vObj [(("$and"), .vNull)])] := rfl
    rw [h]
    simp

/-- C5 amended: an empty value after a comparison, element or element-match
tag classifies to `null` and the key is dropped, but an empty value after a
logical tag `{and} {or} {not} {nor}` yields `{ $<op>: null }` and the key is
retained with that value. -/
theorem C5_amended_empty_tag_values :
    (∀ t ∈ [("eq"), ("gt"), ("gte"), ("in"), ("lt"), ("lte"), ("ne"), ("nin"),
        ("exists"), ("type"), ("elemMatch")],
      getSimpleFilterValue (("\x7b") ++ t ++ ("\x7d")) = .ok .vNull ∧
      getFilter [(("k"), RawVal.rstr (("\x7b") ++ t ++ ("\x7d")))] = .ok []) ∧
    (∀ t ∈ [("and"), ("or"), ("not"), ("nor")],
      getSimpleFilterValue (("\x7b") ++ t ++ ("\x7d")) =
        .ok (.vObj [(("$") ++ t, .vNull)]) ∧
      getFilter [(("k"), RawVal.rstr (("\x7b") ++ t ++ ("\x7d")))] =
        .ok [(("k"), .vObj [(("$") ++ t, .vNull)])]) := by
  constructor
  · intro t ht
    fin_cases ht <;> exact ⟨rfl, rfl⟩
  · intro t ht
    fin_cases ht <;> exact ⟨rfl, rfl⟩

/-- C5 amended, witness at `{gt}` and `{and}`. -/
theorem C5_amended_witness :
    getSimpleFilterValue ("{gt}") = .ok .vNull ∧
    getSimpleFilterValue ("{and}") = .ok (.vObj [(("$and"), .vNull)]) :=
  ⟨(C5_amended_empty_tag_values.1 ("gt") (by simp)).1,
   (C5_amended_empty_tag_values.2 ("and") (by simp)).1⟩

/-- C7: wildcard tokens become case-insensitive regex nodes with the
anchors produced by the source: leading `*` gives `^body`, trailing `*`
gives `body$`, both give the unanchored body. -/
theorem C7_wildcard_anchors :
    getSimpleFilterValue ("*abc") =
      .ok (.vObj [(("$regex"), .vStr ("^abc")), (("$options"), .vStr ("i"))]) ∧
    getSimpleFilterValue ("abc*") =
      .ok (.vObj [(("$regex"), .vStr ("abc$")), (("$options"), .vStr ("i"))]) ∧
    getSimpleFilterValue ("*abc*") =
      .ok (.vObj [(("$regex"), .vStr ("abc")), (("$options"), .vStr ("i"))]) :=
  ⟨rfl, rfl, rfl⟩

/-- C9: value classification terminates on every finite token — any fuel of
at least `3·length + 1` already yields the canonical value, because every
recursive call site shrinks its argument: the brace-tag residual, the pipe
split parts and the brace split segments are strictly shorter, and the
element-match subquery values are shorter by the length of the tag. -/
theorem C9_classification_terminates (s : String) (n : Nat) (hn : 3 * s.length + 1 ≤ n) :
    getSimpleFilterValueF n s = getSimpleFilterValue s ∧
    (s ≠ ("") → (tagValue s).length < s.length) ∧
    (strContains s '|' = true → ∀ x ∈ jsSplit s '|', x.length < s.length) ∧
    (isANDFilter s = true → ∀ x ∈ braceSplit s, x.length < s.length) ∧
    (isElementMatchFilter s = true →
      ∀ kv ∈ elemParams (tagValue s), ∀ x ∈ valStrings kv.2, x.length + 11 ≤ s.length) :=
  ⟨getSimpleFilterValueF_eq hn, fun h => tagValue_lt h,
   fun hc x hx => jsSplit_mem_lt hx hc,
   fun hA x hx => braceSplit_mem_lt hx hA,
   fun hEM kv hkv x hx => by
     have h1 := elemParams_val_le hkv hx
     have h2 := (elemMatch_length hEM).2
     omega⟩

/-- C9 witness: at `{gt}5` (length 5) every fuel of at least 16 computes the
canonical value. -/
theorem C9_witness :
    getSimpleFilterValueF 100 ("{gt}5") = getSimpleFilterValue ("{gt}5") :=
  (C9_classification_terminates ("{gt}5") 100 (by decide)).1

/-- C10: a filter key whose raw array elements classify to a plain string
does not receive the string itself: the merge enumerates the string's own
keys, so the compiled value maps each decimal character index to the
corresponding one-character string. -/
theorem C10_array_string_merge (key tok w : String)
    (hk : key ∉ reservedKeys)
    (hw : getSimpleFilterValue tok = .ok (.vStr w)) :
    getFilter [(key, RawVal.rarr [tok])] =
      .ok [(cleanKey key, .vObj ((strProps w).foldl (fun a p => setKey a p.1 p.2) []))] := by
  have hstrip : stripReserved [(key, RawVal.rarr [tok])] = [(key, RawVal.rarr [tok])] := by
    unfold stripReserved
    rw [List.filter_eq_self]
    intro kv hkv
    simp only [List.mem_singleton] at hkv
    subst hkv
    simpa using hk
  have hmap : getMapOfOperatorsWithValues [tok] = .ok [.vStr w] := by
    rw [getMapOfOperatorsWithValues_unfold]
    simp only [mapBody, hw]
  have himp : getImplicitANDValue [tok] =
      .ok (.vObj ((strProps w).foldl (fun a p => setKey a p.1 p.2) [])) := by
    rw [getImplicitANDValue_unfold]
    simp only [impBody, hmap, impFold, impStep_vStr]
  rw [getFilter_unfold]
  unfold filBody
  rw [hstrip]
  simp only [filFold, filStep, himp]
  rfl

/-- C10 witness: `{ k: ["ab"] }` compiles to
`{ k: { "0": "a", "1": "b" } }`. -/
theorem C10_witness :
    getFilter [(("k"), RawVal.rarr [("ab")])] =
      .ok [(("k"), .vObj [(("0"), .vStr ("a")), (("1"), .vStr ("b"))])] :=
  C10_array_string_merge ("k") ("ab") ("ab") (by decide) rfl

/-! ## Key sanitization of the compiled maps (claim C3) -/

theorem cleanKey_chars {s : String} : ∀ c ∈ (cleanKey s).data, keyKeep c = true := by
  intro c hc
  exact List.of_mem_filter hc

theorem setKey_forall_keys {α : Type} (P : String → Prop) {m : List (String × α)} {k : String}
    {v : α} (hm : ∀ kv ∈ m, P kv.1) (hk : P k) : ∀ kv ∈ setKey m k v, P kv.1 := by
  intro kv hkv
  unfold setKey at hkv
  by_cases hany : m.any (fun kv => kv.1 = k)
  · rw [if_pos hany] at hkv
    obtain ⟨kv0, hkv0, heq⟩ := List.mem_map.mp hkv
    by_cases h0 : kv0.1 = k
    · rw [if_pos (by simp [h0])] at heq
      rw [← heq]
      exact hk
    · rw [if_neg (by simp [h0])] at heq
      rw [← heq]
      exact hm kv0 hkv0
  · rw [if_neg hany] at hkv
    rcases List.mem_append.mp hkv with hkv | hkv
    · exact hm kv hkv
    · simp only [List.mem_singleton] at hkv
      rw [hkv]
      exact hk

theorem foldl_setCleanKeys {α : Type} (g : String → α) :
    ∀ (parts : List String) (acc : List (String × α)),
      (∀ kv ∈ acc, ∀ c ∈ kv.1.data, keyKeep c = true) →
      ∀ kv ∈ parts.foldl (fun obj key => setKey obj (cleanKey key) (g key)) acc,
        ∀ c ∈ kv.1.data, keyKeep c = true := by
  intro parts
  induction parts with
  | nil =>
    intro acc hacc
    exact hacc
  | cons p rest ih =>
    intro acc hacc
    simp only [List.foldl_cons]
    exact ih _ (setKey_forall_keys (fun k => ∀ c ∈ k.data, keyKeep c = true) hacc cleanKey_chars)

theorem getSelect_keys (q : RawQuery) :
    ∀ kv ∈ getSelect q [], ∀ c ∈ kv.1.data, keyKeep c = true := by
  intro kv hkv
  unfold getSelect at hkv
  split at hkv
  · split at hkv
    · cases hkv
    · exact foldl_setCleanKeys _ _ [] (fun kv h => by cases h) kv hkv
  · cases hkv

theorem getSort_keys (q : RawQuery) :
    ∀ kv ∈ getSort q [], ∀ c ∈ kv.1.data, keyKeep c = true := by
  intro kv hkv
  unfold getSort at hkv
  split at hkv
  · split at hkv
    · cases hkv
    · exact foldl_setCleanKeys _ _ [] (fun kv h => by cases h) kv hkv
  · cases hkv

theorem filFold_keys {kC : String → Except JSErr JSValue}
    {kI : List String → Except JSErr JSValue} :
    ∀ (q : RawQuery) (obj f : ObjMap),
      (∀ kv ∈ obj, ∀ c ∈ kv.1.data, keyKeep c = true) →
      filFold kC kI obj q = .ok f →
      ∀ kv ∈ f, ∀ c ∈ kv.1.data, keyKeep c = true := by
  intro q
  induction q with
  | nil =>
    intro obj f hobj h
    cases h
    exact hobj
  | cons kv rest ih =>
    intro obj f hobj h
    simp only [filFold] at h
    rcases hs : filStep kC kI obj kv.1 kv.2 with e | obj2
    · rw [hs] at h
      cases h
    · rw [hs] at h
      refine ih obj2 f ?_ h
      rcases hv : kv.2 with sv | arr
      · rw [hv] at hs
        simp only [filStep] at hs
        rcases hc : kC sv with e | value
        · rw [hc] at hs
          cases hs
        · rw [hc] at hs
          cases hs
          by_cases hnull : isVNull value = true
          · rw [if_pos hnull]
            exact hobj
          · rw [if_neg hnull]
            exact setKey_forall_keys (fun k => ∀ c ∈ k.data, keyKeep c = true) hobj
              cleanKey_chars
      · rw [hv] at hs
        simp only [filStep] at hs
        rcases hc : kI arr with e | value
        · rw [hc] at hs
          cases hs
        · rw [hc] at hs
          cases hs
          exact setKey_forall_keys (fun k => ∀ c ∈ k.data, keyKeep c = true) hobj
            cleanKey_chars

/-- C3 counterexample: the sanitizer keeps `[` — a character outside
`[A-Za-z0-9_.]` — so it differs from the spec-worded sanitizer at `"["`,
and a bracket key survives into the compiled projection. -/
theorem C3_counterexample_bracket_survives :
    cleanKey ("[") ≠ specSanitize ("[") ∧
    getSelect [(("select"), RawVal.rstr ("["))] [] = [(("["), JSValue.vNum 1)] :=
  ⟨by decide, rfl⟩

/-- C3 amended: the key sanitizer removes exactly the characters outside
the regex class `[A-z0-9_.]` — ASCII 65..122 together with the digits and
the dot, which also admits `[ \ ] ^ _ \x60` — and consequently every
field-path key of the compiled projection, sort and filter maps consists
only of characters of that class. -/
theorem C3_amended_sanitized_keys (q : RawQuery) (f : ObjMap) (h : getFilter q = .ok f) :
    (∀ s : String, (cleanKey s).data = s.data.filter keyKeep) ∧
    (∀ kv ∈ getSelect q [], ∀ c ∈ kv.1.data, keyKeep c = true) ∧
    (∀ kv ∈ getSort q [], ∀ c ∈ kv.1.data, keyKeep c = true) ∧
    (∀ kv ∈ f, ∀ c ∈ kv.1.data, keyKeep c = true) := by
  refine ⟨fun s => rfl, getSelect_keys q, getSort_keys q, ?_⟩
  rw [getFilter_unfold] at h
  unfold filBody at h
  exact filFold_keys _ _ _ (fun kv h => by cases h) h

/-- C3 amended, witness: the raw key `a#b` is sanitized to `ab` in the
compiled filter, whose characters lie in the regex class. -/
theorem C3_amended_witness :
    getFilter [(("a#b"), RawVal.rstr ("1"))] = .ok [(("ab"), JSValue.vNum 1)] ∧
    keyKeep 'a' = true :=
  ⟨rfl, (C3_amended_sanitized_keys [(("a#b"), RawVal.rstr ("1"))]
    [(("ab"), JSValue.vNum 1)] rfl).2.2.2 (("ab"), JSValue.vNum 1) (by simp) 'a' (by simp)⟩

/-! ## Pagination (claim C8) -/

theorem stripReserved_filter_page (q : RawQuery) :
    stripReserved (q.filter (fun kv => kv.1 ≠ ("page"))) = stripReserved q := by
  unfold stripReserved
  rw [List.filter_filter]
  apply List.filter_congr
  intro kv _
  by_cases hp : kv.1 = ("page")
  · rw [hp]
    decide
  · simp [hp]

/-- C8: when `page` is present and parses to an integer greater than 1, the
compiled skip is `(page - 1) · limit`, regardless of any explicit `skip`
value; and the filter compiler ignores the `page` entry entirely, so `page`
never reaches the output tree. -/
theorem C8_page_overrides_skip {q : RawQuery} {p : String} {m : MongoQueryModel}
    (hp : jsGet q ("page") = some (RawVal.rstr p))
    (hint : isInt p = true) (hgt : 1 < strToInt p)
    (hm : parse q = .ok m) :
    m.skip = (strToInt p - 1) * m.limit ∧
    getFilter q = getFilter (q.filter (fun kv => kv.1 ≠ ("page"))) := by
  have hpne : p ≠ ("") := by
    intro h
    rw [h] at hint
    cases hint
  have htr : keyTruthy q ("page") = true := by
    unfold keyTruthy
    rw [hp]
    simpa using hpne
  have hik : getIntKey q ("page") 1 = strToInt p := by
    unfold getIntKey
    rw [hp]
    show (if (decide (p ≠ ("")) && isInt p) = true then strToInt p else 1) = strToInt p
    rw [if_pos (by simp [hint, hpne])]
  constructor
  · unfold parse at hm
    rcases hf : getFilter q with e | f
    · rw [hf] at hm
      cases hm
    · rw [hf] at hm
      cases hm
      show (if keyTruthy q ("page") = true then
          getSkipFromPage q 1 (getIntKey q ("limit") 100)
        else getIntKey q ("skip") 0) = _
      rw [if_pos htr]
      unfold getSkipFromPage
      rw [hik, if_pos (by omega)]
  · rw [getFilter_unfold, getFilter_unfold]
    unfold filBody
    rw [stripReserved_filter_page]

/-- C8 witness: `{ limit: "10", page: "3", skip: "7" }` resolves to limit 10
and skip 20, overriding the explicit skip. -/
theorem C8_witness :
    parse [(("limit"), RawVal.rstr ("10")), (("page"), RawVal.rstr ("3")),
      (("skip"), RawVal.rstr ("7"))] = .ok ⟨10, 20, [], [], []⟩ ∧
    (⟨10, 20, [], [], []⟩ : MongoQueryModel).skip =
      (strToInt ("3") - 1) * (⟨10, 20, [], [], []⟩ : MongoQueryModel).limit :=
  ⟨rfl,
   (C8_page_overrides_skip
     (show jsGet [(("limit"), RawVal.rstr ("10")), (("page"), RawVal.rstr ("3")),
       (("skip"), RawVal.rstr ("7"))] ("page") = some (RawVal.rstr ("3")) from rfl)
     rfl (by decide) rfl).1⟩

/-! ## Structure of brace-concatenated tokens (claim C6) -/

theorem splitCh_append_left {sep : Char} :
    ∀ {xs ys : List Char} {h : List Char} {t : List (List Char)},
      sep ∉ xs → splitCh sep ys = h :: t → splitCh sep (xs ++ ys) = (xs ++ h) :: t := by
  intro xs
  induction xs with
  | nil =>
    intro ys h t _ hys
    simpa using hys
  | cons c cs ih =>
    intro ys h t hsep hys
    have hc : c ≠ sep := by
      intro hx
      exact hsep (hx ▸ List.mem_cons_self c cs)
    rw [List.cons_append, splitCh_cons_ne hc,
      ih (fun hm => hsep (List.mem_cons_of_mem c hm)) hys]
    rfl

theorem splitCh_no_sep {sep : Char} {l : List Char} (h : sep ∉ l) : splitCh sep l = [l] := by
  have := splitCh_append_left h (show splitCh sep [] = [] :: [] from rfl)
  simpa using this

theorem renderGroups_cons (g : String × String) (rest : List (String × String)) :
    renderGroups (g :: rest) =
      ⟨'{' :: (g.1.data ++ '}' :: (g.2.data ++ (renderGroups rest).data))⟩ := rfl

theorem renderGroups_not_mem {ch : Char} (h1 : ch ≠ '{') (h2 : ch ≠ '}') :
    ∀ (gs : List (String × String)), (∀ g ∈ gs, ch ∉ g.1.data ∧ ch ∉ g.2.data) →
      ch ∉ (renderGroups gs).data := by
  intro gs
  induction gs with
  | nil =>
    intro _ h
    cases h
  | cons g rest ih =>
    intro hall hmem
    rw [renderGroups_cons] at hmem
    simp only [List.mem_cons, List.mem_append] at hmem
    rcases hmem with h | h | h | h
    · exact h1 h
    · exact (hall g (by simp)).1 h
    · exact h2 h
    rcases h with h | h
    · exact (hall g (by simp)).2 h
    · exact ih (fun g2 hg2 => hall g2 (by simp [hg2])) h

/-- Splitting the rendered token at `{` isolates each `op}value` body. -/
theorem splitCh_render :
    ∀ (gs : List (String × String)),
      (∀ g ∈ gs, '{' ∉ g.1.data) → (∀ g ∈ gs, '{' ∉ g.2.data) →
      splitCh '{' (renderGroups gs).data =
        [] :: gs.map (fun g => g.1.data ++ '}' :: g.2.data) := by
  intro gs
  induction gs with
  | nil =>
    intro _ _
    rfl
  | cons g rest ih =>
    intro hop hv
    rw [renderGroups_cons]
    show splitCh '{' ('{' :: (g.1.data ++ '}' :: (g.2.data ++ (renderGroups rest).data))) = _
    rw [splitCh_cons_self]
    have h1 := ih (fun g2 hg2 => hop g2 (by simp [hg2])) (fun g2 hg2 => hv g2 (by simp [hg2]))
    have h2 := splitCh_append_left (hv g (by simp)) h1
    have h3 : splitCh '{' ('}' :: (g.2.data ++ (renderGroups rest).data)) =
        ('}' :: (g.2.data ++ [])) :: rest.map (fun g => g.1.data ++ '}' :: g.2.data) := by
      rw [splitCh_cons_ne (by decide), h2]
    have h4 := splitCh_append_left (hop g (by simp)) h3
    rw [h4]
    simp

theorem replaceBrace_append (a b : List Char) :
    replaceBrace (a ++ b) = replaceBrace a ++ replaceBrace b := by
  induction a with
  | nil => rfl
  | cons c cs ih =>
    by_cases hc : c = '{'
    · subst hc
      rw [List.cons_append, replaceBrace_cons_brace, replaceBrace_cons_brace, ih]
      rfl
    · rw [List.cons_append, replaceBrace_cons_ne hc, replaceBrace_cons_ne hc, ih]
      rfl

theorem replaceBrace_id {l : List Char} (h : '{' ∉ l) : replaceBrace l = l := by
  induction l with
  | nil => rfl
  | cons c cs ih =>
    have hc : c ≠ '{' := fun hx => h (hx ▸ List.mem_cons_self c cs)
    rw [replaceBrace_cons_ne hc, ih (fun hm => h (List.mem_cons_of_mem c hm))]

/-- `replaceBrace` on the rendered token inserts one comma before each
group. -/
theorem replaceBrace_render :
    ∀ (gs : List (String × String)),
      (∀ g ∈ gs, '{' ∉ g.1.data) → (∀ g ∈ gs, '{' ∉ g.2.data) →
      replaceBrace (renderGroups gs).data =
        gs.foldr (fun g acc => ',' :: '{' :: (g.1.data ++ '}' :: (g.2.data ++ acc))) [] := by
  intro gs
  induction gs with
  | nil =>
    intro _ _
    rfl
  | cons g rest ih =>
    intro hop hv
    rw [renderGroups_cons]
    show replaceBrace ('{' :: (g.1.data ++ '}' :: (g.2.data ++ (renderGroups rest).data))) = _
    rw [replaceBrace_cons_brace, replaceBrace_append, replaceBrace_id (hop g (by simp)),
      show replaceBrace ('}' :: (g.2.data ++ (renderGroups rest).data)) =
        '}' :: replaceBrace (g.2.data ++ (renderGroups rest).data) from
        replaceBrace_cons_ne (by decide) _,
      replaceBrace_append, replaceBrace_id (hv g (by simp)),
      ih (fun g2 hg2 => hop g2 (by simp [hg2])) (fun g2 hg2 => hv g2 (by simp [hg2]))]
    simp [List.foldr_cons]

/-- Comma-splitting the brace-replaced rendered token yields the groups. -/
theorem splitCh_comma_blocks :
    ∀ (gs : List (String × String)),
      (∀ g ∈ gs, ',' ∉ g.1.data) → (∀ g ∈ gs, ',' ∉ g.2.data) →
      splitCh ','
          (gs.foldr (fun g acc => ',' :: '{' :: (g.1.data ++ '}' :: (g.2.data ++ acc))) []) =
        [] :: gs.map (fun g => '{' :: (g.1.data ++ '}' :: g.2.data)) := by
  intro gs
  induction gs with
  | nil =>
    intro _ _
    rfl
  | cons g rest ih =>
    intro hop hv
    simp only [List.foldr_cons]
    rw [splitCh_cons_self]
    have h1 := ih (fun g2 hg2 => hop g2 (by simp [hg2])) (fun g2 hg2 => hv g2 (by simp [hg2]))
    have h2 := splitCh_append_left (hv g (by simp)) h1
    have h3 : splitCh ',' ('}' :: (g.2.data ++
        (rest.foldr (fun g acc => ',' :: '{' :: (g.1.data ++ '}' :: (g.2.data ++ acc))) []))) =
        ('}' :: (g.2.data ++ [])) :: rest.map (fun g => '{' :: (g.1.data ++ '}' :: g.2.data)) := by
      rw [splitCh_cons_ne (by decide), h2]
    have h4 := splitCh_append_left (hop g (by simp)) h3
    have h5 : splitCh ',' ('{' :: (g.1.data ++ '}' :: (g.2.data ++
        (rest.foldr (fun g acc => ',' :: '{' :: (g.1.data ++ '}' :: (g.2.data ++ acc))) [])))) =
        ('{' :: (g.1.data ++ ('}' :: (g.2.data ++ [])))) ::
          rest.map (fun g => '{' :: (g.1.data ++ '}' :: g.2.data)) := by
      rw [splitCh_cons_ne (by decide), h4]
    rw [h5]
    simp

/-- The implicit-AND split of the rendered token is exactly the list of
rendered single groups. -/
theorem braceSplit_render (gs : List (String × String))
    (hop1 : ∀ g ∈ gs, '{' ∉ g.1.data) (hop2 : ∀ g ∈ gs, ',' ∉ g.1.data)
    (hv1 : ∀ g ∈ gs, '{' ∉ g.2.data) (hv2 : ∀ g ∈ gs, ',' ∉ g.2.data) :
    braceSplit (renderGroups gs) =
      gs.map (fun g => (⟨'{' :: (g.1.data ++ '}' :: g.2.data)⟩ : String)) := by
  unfold braceSplit
  rw [replaceBrace_render gs hop1 hv1, splitCh_comma_blocks gs hop2 hv2]
  rw [List.filter_cons]
  rw [if_neg (by simp)]
  rw [List.filter_eq_self.mpr (by
    intro a ha
    obtain ⟨g, _, rfl⟩ := List.mem_map.mp ha
    simp)]
  rw [List.map_map]
  rfl

/-! ## Branch conditions of a brace-tagged comparison token -/

theorem strMk_cons_ne_empty {c : Char} {l : List Char} : (⟨c :: l⟩ : String) ≠ ("") := by
  intro h
  have := congrArg String.data h
  simp at this

theorem strContains_eq_false {s : String} {ch : Char} (h : ch ∉ s.data) :
    strContains s ch = false := by
  rcases hb : strContains s ch
  · rfl
  · exact absurd (strContains_mem hb) h

/-- `JSON.parse` fails on `{` followed by anything that is not whitespace,
a quote or a closing brace. -/
theorem jsonVal_brace_fail (n : Nat) {c : Char} {r : List Char}
    (hws : (c = ' ' || c = '\t' || c = '\n' || c = '\r') = false)
    (h1 : c ≠ '"') (h2 : c ≠ '}') :
    jsonVal n ('{' :: c :: r) = none := by
  have hsk2 : skipWs (c :: r) = c :: r := by
    unfold skipWs
    rw [List.dropWhile_cons, if_neg (by simp [hws])]
  cases n with
  | zero => rfl
  | succ n1 =>
    show jsonObjBody n1 (skipWs (c :: r)) = none
    rw [hsk2]
    cases n1 with
    | zero => rfl
    | succ n2 =>
      simp only [jsonObjBody]
      split
      · rename_i heq
        injection heq with hch _
        exact absurd hch h2
      · have hmem : jsonMembers n2 (c :: r) = none := by
          cases n2 with
          | zero => rfl
          | succ n3 =>
            simp only [jsonMembers]
            rw [hsk2]
            split
            · rename_i heq
              injection heq with hch _
              exact absurd hch h1
            · rfl
        rw [hmem]
        rfl

theorem isJson_brace_fail {c : Char} {r : List Char}
    (hws : (c = ' ' || c = '\t' || c = '\n' || c = '\r') = false)
    (h1 : c ≠ '"') (h2 : c ≠ '}') :
    isJson ⟨'{' :: c :: r⟩ = false := by
  unfold isJson jsonParse
  rw [jsonVal_brace_fail _ hws h1 h2]

/-- Character-level facts about the comparison tags. -/
theorem comparisonOp_chars {op : String} (hop : op ∈ comparisonOps) :
    op.data ≠ [] ∧ '{' ∉ op.data ∧ '}' ∉ op.data ∧ '|' ∉ op.data ∧ ',' ∉ op.data := by
  fin_cases hop <;> exact ⟨by decide, by decide, by decide, by decide, by decide⟩

/-- Shape-predicate evaluation on a token that starts with a comparison tag
(whatever follows the closing brace). -/
theorem comparisonOp_facts {op : String} (hop : op ∈ comparisonOps) (tail : List Char) :
    isJson ⟨'{' :: (op.data ++ '}' :: tail)⟩ = false ∧
    isElementMatchFilter ⟨'{' :: (op.data ++ '}' :: tail)⟩ = false ∧
    isLogicalOperator ⟨'{' :: (op.data ++ '}' :: tail)⟩ = false ∧
    isComparisonFilter ⟨'{' :: (op.data ++ '}' :: tail)⟩ = true := by
  fin_cases hop <;>
    refine ⟨isJson_brace_fail (by decide) (by decide) (by decide), ?_, ?_, ?_⟩ <;>
      simp [isElementMatchFilter, isLogicalOperator, isComparisonFilter, logicalOperators,
        jsStartsWith, List.isPrefixOf_cons₂]

theorem takeWhile_append_stop (p : Char → Bool) :
    ∀ {xs : List Char} (y : Char) (ys : List Char), (∀ a ∈ xs, p a = true) → p y = false →
      (xs ++ y :: ys).takeWhile p = xs ∧ (xs ++ y :: ys).dropWhile p = y :: ys := by
  intro xs
  induction xs with
  | nil =>
    intro y ys _ hy
    constructor
    · simp [List.takeWhile_cons, hy]
    · simp [List.dropWhile_cons, hy]
  | cons a as ih =>
    intro y ys hall hy
    have ha : p a = true := hall a (by simp)
    have hih := ih y ys (fun b hb => hall b (by simp [hb])) hy
    constructor
    · simp only [List.cons_append, List.takeWhile_cons, ha, if_true]
      rw [hih.1]
    · simp only [List.cons_append, List.dropWhile_cons, ha, if_true]
      exact hih.2

theorem tagOp_tagged {op v : String} (hnr : '}' ∉ op.data) :
    tagOp ⟨'{' :: (op.data ++ '}' :: v.data)⟩ = op := by
  show (⟨(op.data ++ '}' :: v.data).takeWhile (fun c => c ≠ '}')⟩ : String) = op
  rw [(takeWhile_append_stop (fun c => decide (c ≠ '}')) '}' v.data
    (fun a ha => by
      simp only [decide_eq_true_eq]
      intro heq
      exact hnr (heq ▸ ha))
    (by simp)).1]

theorem tagValue_tagged {op v : String} (hnr : '}' ∉ op.data) :
    tagValue ⟨'{' :: (op.data ++ '}' :: v.data)⟩ = v := by
  show (⟨((op.data ++ '}' :: v.data).dropWhile (fun c => c ≠ '}')).drop 1⟩ : String) = v
  rw [(takeWhile_append_stop (fun c => decide (c ≠ '}')) '}' v.data
    (fun a ha => by
      simp only [decide_eq_true_eq]
      intro heq
      exact hnr (heq ▸ ha))
    (by simp)).2]
  rfl

/-- Classification of a single well-formed `{op}value` token whose tag is a
comparison operator: the comparison branch fires and wraps the classified
value. -/
theorem classify_tagged (op v : String) (w : JSValue)
    (hnb : '{' ∉ op.data) (hnr : '}' ∉ op.data) (hnp : '|' ∉ op.data)
    (hJson : isJson ⟨'{' :: (op.data ++ '}' :: v.data)⟩ = false)
    (hEM : isElementMatchFilter ⟨'{' :: (op.data ++ '}' :: v.data)⟩ = false)
    (hLog : isLogicalOperator ⟨'{' :: (op.data ++ '}' :: v.data)⟩ = false)
    (hCmp : isComparisonFilter ⟨'{' :: (op.data ++ '}' :: v.data)⟩ = true)
    (hv0 : v ≠ ("")) (hvb : '{' ∉ v.data) (hvp : '|' ∉ v.data)
    (hw : getSimpleFilterValue v = .ok w) :
    getSimpleFilterValue ⟨'{' :: (op.data ++ '}' :: v.data)⟩ =
      .ok (.vObj [(("$") ++ op, w)]) := by
  have htagOp := @tagOp_tagged op v hnr
  have htagVal := @tagValue_tagged op v hnr
  have hOR : isORFilter ⟨'{' :: (op.data ++ '}' :: v.data)⟩ = false := by
    unfold isORFilter
    rw [strContains_eq_false]
    · rfl
    · intro hmem
      simp only [List.mem_cons, List.mem_append] at hmem
      rcases hmem with h | h | h | h
      · exact absurd h (by decide)
      · exact hnp h
      · exact absurd h (by decide)
      · exact hvp h
  have hAND : isANDFilter ⟨'{' :: (op.data ++ '}' :: v.data)⟩ = false := by
    have hsp : splitCh '{' (op.data ++ '}' :: v.data) = [op.data ++ '}' :: v.data] := by
      apply splitCh_no_sep
      intro hmem
      simp only [List.mem_append, List.mem_cons] at hmem
      rcases hmem with h | h | h
      · exact hnb h
      · exact absurd h (by decide)
      · exact hvb h
    unfold isANDFilter
    show (strContains ⟨'{' :: (op.data ++ '}' :: v.data)⟩ '{' &&
        decide ((((splitCh '{' ('{' :: (op.data ++ '}' :: v.data))).filter
          (fun v => v ≠ [])).length) > 1)) = false
    rw [splitCh_cons_self, hsp]
    simp [show op.data ++ '}' :: v.data ≠ [] from by simp]
  rw [getSimpleFilterValue_unfold]
  unfold classifyBody
  rw [if_neg strMk_cons_ne_empty, if_neg (by simp [hJson]), if_neg (by simp [hEM]),
    if_neg (by simp [hLog]), if_neg (by simp [hOR]), if_neg (by simp [hAND]),
    if_pos hCmp, htagVal, htagOp, if_neg hv0, hw]

/-- Mapping classification over a list of rendered `{op}value` tokens. -/
theorem map_groups : ∀ {gs : List (String × String)} {ws : List JSValue},
    List.Forall₂ (fun g w => getSimpleFilterValue g.2 = .ok w) gs ws →
    (∀ g ∈ gs, g.1 ∈ comparisonOps) →
    (∀ g ∈ gs, g.2 ≠ ("") ∧ '{' ∉ g.2.data ∧ '|' ∉ g.2.data) →
    getMapOfOperatorsWithValues
        (gs.map (fun g => (⟨'{' :: (g.1.data ++ '}' :: g.2.data)⟩ : String))) =
      .ok ((gs.zip ws).map (fun gw => JSValue.vObj [(("$") ++ gw.1.1, gw.2)])) := by
  intro gs ws hws
  induction hws with
  | nil =>
    intro _ _
    rw [getMapOfOperatorsWithValues_unfold]
    rfl
  | cons hgw htail ih =>
    rename_i g w gs2 ws2
    intro hops hvals
    rw [getMapOfOperatorsWithValues_unfold]
    simp only [List.map_cons, mapBody]
    have hch := comparisonOp_chars (hops g (by simp))
    have hfacts := comparisonOp_facts (hops g (by simp)) g.2.data
    have hv := hvals g (by simp)
    rw [classify_tagged g.1 g.2 w hch.2.1 hch.2.2.1 hch.2.2.2.1
      hfacts.1 hfacts.2.1 hfacts.2.2.1 hfacts.2.2.2
      hv.1 hv.2.1 hv.2.2 hgw]
    rw [← getMapOfOperatorsWithValues_unfold]
    rw [ih (fun g2 hg => hops g2 (by simp [hg])) (fun g2 hg => hvals g2 (by simp [hg]))]
    rfl

theorem impFold_objs : ∀ (ps : List (String × JSValue)) (acc : ObjMap),
    impFold acc (ps.map (fun p => JSValue.vObj [p])) =
      .ok (ps.foldl (fun a p => setKey a p.1 p.2) acc) := by
  intro ps
  induction ps with
  | nil =>
    intro acc
    rfl
  | cons p ps2 ih =>
    intro acc
    simp only [List.map_cons, impFold]
    rw [show impStep acc (.vObj [p]) = .ok (setKey acc p.1 p.2) from
      impStep_singleObj acc p.1 p.2]
    exact ih (setKey acc p.1 p.2)

/-- Merging a rendered group list through `getImplicitANDValue`: last write
wins through `setKey`. -/
theorem imp_groups {gs : List (String × String)} {ws : List JSValue}
    (hws : List.Forall₂ (fun g w => getSimpleFilterValue g.2 = .ok w) gs ws)
    (hops : ∀ g ∈ gs, g.1 ∈ comparisonOps)
    (hvals : ∀ g ∈ gs, g.2 ≠ ("") ∧ '{' ∉ g.2.data ∧ '|' ∉ g.2.data) :
    getImplicitANDValue
        (gs.map (fun g => (⟨'{' :: (g.1.data ++ '}' :: g.2.data)⟩ : String))) =
      .ok (.vObj ((gs.zip ws).foldl
        (fun acc gw => setKey acc (("$") ++ gw.1.1) gw.2) [])) := by
  rw [getImplicitANDValue_unfold]
  unfold impBody
  rw [map_groups hws hops hvals]
  rw [show List.map (fun gw => JSValue.vObj [(("$") ++ gw.1.1, gw.2)]) (gs.zip ws) =
      List.map (fun p => JSValue.vObj [p])
        (List.map (fun gw : (String × String) × JSValue => ((("$") ++ gw.1.1), gw.2)) (gs.zip ws))
    from by
      rw [List.map_map]
      rfl]
  show (match impFold [] (List.map (fun p => JSValue.vObj [p])
      (List.map (fun gw : (String × String) × JSValue => ((("$") ++ gw.1.1), gw.2)) (gs.zip ws))) with
    | Except.error e => Except.error e
    | Except.ok obj => Except.ok (JSValue.vObj obj)) =
    Except.ok (JSValue.vObj (List.foldl (fun acc gw => setKey acc (("$") ++ gw.1.1) gw.2) [] (gs.zip ws)))
  rw [impFold_objs]
  simp only [List.foldl_map]

/-- C6: classifying a token of two or more concatenated `{op}value` groups
splits it into one substring per group, classifies each value, and merges
the single-operator objects into one multi-operator object with no `$and`
wrapper; on a repeated operator symbol the later group silently overwrites
the earlier (last write wins through `setKey`). -/
theorem C6_implicit_AND_merge (gs : List (String × String)) (ws : List JSValue)
    (h2 : 2 ≤ gs.length)
    (hops : ∀ g ∈ gs, g.1 ∈ comparisonOps)
    (hvals : ∀ g ∈ gs, g.2 ≠ ("") ∧ ∀ c ∈ g.2.data, c ≠ '{' ∧ c ≠ ',' ∧ c ≠ '|')
    (hws : List.Forall₂ (fun g w => getSimpleFilterValue g.2 = .ok w) gs ws) :
    getSimpleFilterValue (renderGroups gs) =
      .ok (.vObj ((gs.zip ws).foldl
        (fun acc gw => setKey acc (("$") ++ gw.1.1) gw.2) [])) := by
  obtain ⟨g1, rest, rfl⟩ : ∃ g1 rest, gs = g1 :: rest := by
    cases gs with
    | nil => simp at h2
    | cons a t => exact ⟨a, t, rfl⟩
  have hvals2 : ∀ g ∈ g1 :: rest, g.2 ≠ ("") ∧ '{' ∉ g.2.data ∧ '|' ∉ g.2.data := by
    intro g hg
    obtain ⟨hne, hc⟩ := hvals g hg
    exact ⟨hne, fun hm => (hc _ hm).1 rfl, fun hm => (hc _ hm).2.2 rfl⟩
  have hcomma : ∀ g ∈ g1 :: rest, ',' ∉ g.2.data :=
    fun g hg hm => ((hvals g hg).2 _ hm).2.1 rfl
  have hfacts := comparisonOp_facts (hops g1 (by simp))
    (g1.2.data ++ (renderGroups rest).data)
  rw [← renderGroups_cons g1 rest] at hfacts
  have hne : renderGroups (g1 :: rest) ≠ ("") := by
    rw [renderGroups_cons]
    exact strMk_cons_ne_empty
  have hpipe : '|' ∉ (renderGroups (g1 :: rest)).data := by
    apply renderGroups_not_mem (by decide) (by decide)
    intro g hg
    exact ⟨(comparisonOp_chars (hops g hg)).2.2.2.1, (hvals2 g hg).2.2⟩
  have hOR : isORFilter (renderGroups (g1 :: rest)) = false := by
    unfold isORFilter
    rw [strContains_eq_false hpipe]
    rfl
  have hbrace : strContains (renderGroups (g1 :: rest)) '{' = true := by
    rw [renderGroups_cons]
    rfl
  have hsplit := splitCh_render (g1 :: rest)
    (fun g hg => (comparisonOp_chars (hops g hg)).2.1)
    (fun g hg => (hvals2 g hg).2.1)
  have hAND : isANDFilter (renderGroups (g1 :: rest)) = true := by
    unfold isANDFilter
    rw [hsplit, hbrace]
    rw [List.filter_cons, if_neg (by simp)]
    rw [List.filter_eq_self.mpr (by
      intro a ha
      obtain ⟨g, _, rfl⟩ := List.mem_map.mp ha
      simp)]
    simp only [List.length_map, List.length_cons, Bool.true_and, decide_eq_true_eq]
    simp only [List.length_cons] at h2
    omega
  rw [getSimpleFilterValue_unfold]
  unfold classifyBody
  rw [if_neg hne, if_neg (by simp [hfacts.1]), if_neg (by simp [hfacts.2.1]),
    if_neg (by simp [hfacts.2.2.1]), if_neg (by simp [hOR]), if_pos hAND]
  rw [braceSplit_render (g1 :: rest)
    (fun g hg => (comparisonOp_chars (hops g hg)).2.1)
    (fun g hg => (comparisonOp_chars (hops g hg)).2.2.2.2)
    (fun g hg => (hvals2 g hg).2.1)
    (fun g hg => hcomma g hg)]
  exact imp_groups hws hops hvals2

/-- Closed instances of C6: the claim's example `{gt}5{lt}10` merges to
`{ $gt: 5, $lt: 10 }`, and a repeated operator `{gt}5{gt}10` is
overwritten by the later group, giving `{ $gt: 10 }`. -/
theorem C6_witness :
    getSimpleFilterValue ("{gt}5{lt}10") =
      .ok (.vObj [(("$gt"), .vNum 5), (("$lt"), .vNum 10)]) ∧
    getSimpleFilterValue ("{gt}5{gt}10") = .ok (.vObj [(("$gt"), .vNum 10)]) := by
  constructor
  · exact C6_implicit_AND_merge [(("gt"), ("5")), (("lt"), ("10"))] [.vNum 5, .vNum 10]
      (by decide) (by decide) (by decide)
      (List.Forall₂.cons rfl (List.Forall₂.cons rfl List.Forall₂.nil))
  · exact C6_implicit_AND_merge [(("gt"), ("5")), (("gt"), ("10"))] [.vNum 5, .vNum 10]
      (by decide) (by decide) (by decide)
      (List.Forall₂.cons rfl (List.Forall₂.cons rfl List.Forall₂.nil))
